import Mathlib

/-!
# rss_reader: a verification development

Shallow embedding of `utils/utils.go` (`dateFormats`, `ParseDate`) and of
`rss_reader.go` (`fetchItemsFromURL`, `Parse`), and the properties proved of
them.

* `ParseDate` calls `time.Parse` of the Go standard library.  The part of
  package `time` that `time.Parse` runs (`nextStdChunk`, `skip`, `lookup`,
  `getnum`, `atoi`, `parseTimeZone`, `parse`, `Date`, ...) is embedded in the
  namespace `time`, function by function, after `time/format.go` and
  `time/time.go` (as of Go 1.23 and later: a comma may introduce fractional
  seconds, and a numeric zone offset is range-tested).  Go strings are byte
  sequences: they are lists of byte values here (`Bytes`), a Lean `String`
  being read through its UTF-8 encoding.  `time.Local`, which depends on the
  process, is a parameter.
* `fetchItemsFromURL` is the sequence of sends its goroutine performs; the
  network and the XML decoder are parameters (`World`), and every retrieval
  ends (with a response or an error).
* `Parse` starts one goroutine per url and runs its `select` loop against
  them: both channels are unbuffered, so each `select` receives the next send
  of one goroutine that has a send pending, and a scheduler, a parameter,
  chooses which.  Every order of arrival comes from some scheduler
  (`rss_reader.Parse_follows`).
-/

set_option maxRecDepth 100000
set_option maxHeartbeats 4000000

/-- A Go string: its sequence of bytes. -/
abbrev Bytes := List Nat

/-- The bytes of a string (UTF-8), as Go stores it. -/
def toBytes (s : String) : Bytes :=
  (s.data.flatMap String.utf8EncodeChar).map UInt8.toNat

/-- Test `len(s) >= len(p) && s[0:len(p)] == p`. -/
def startsWith : Bytes → Bytes → Bool
  | [], _ => true
  | _ :: _, [] => false
  | p :: ps, c :: cs => p == c && startsWith ps cs

namespace time

/-! ## Layout constants of package `time` -/

def RFC822 : String := "02 Jan 06 15:04 MST"
def RFC822Z : String := "02 Jan 06 15:04 -0700"
def RFC3339 : String := "2006-01-02T15:04:05Z07:00"
def UnixDate : String := "Mon Jan _2 15:04:05 MST 2006"
def RubyDate : String := "Mon Jan 02 15:04:05 -0700 2006"
def RFC850 : String := "Monday, 02-Jan-06 15:04:05 MST"
def RFC1123Z : String := "Mon, 02 Jan 2006 15:04:05 -0700"
def RFC1123 : String := "Mon, 02 Jan 2006 15:04:05 MST"
def ANSIC : String := "Mon Jan _2 15:04:05 2006"

/-- The layout elements recognised by `nextStdChunk` (the `std...` constants);
`zero` is the value `0` returned when the layout holds no further element.
The fractional-second elements carry their digit count. -/
inductive Std where
  | zero
  | stdLongMonth | stdMonth | stdNumMonth | stdZeroMonth
  | stdLongWeekDay | stdWeekDay
  | stdDay | stdUnderDay | stdZeroDay | stdUnderYearDay | stdZeroYearDay
  | stdHour | stdHour12 | stdZeroHour12
  | stdMinute | stdZeroMinute | stdSecond | stdZeroSecond
  | stdLongYear | stdYear
  | stdPM | stdpm
  | stdTZ
  | stdISO8601TZ | stdISO8601SecondsTZ | stdISO8601ShortTZ
  | stdISO8601ColonTZ | stdISO8601ColonSecondsTZ
  | stdNumTZ | stdNumSecondsTz | stdNumShortTZ | stdNumColonTZ | stdNumColonSecondsTZ
  | stdFracSecond0 (digits : Nat)
  | stdFracSecond9 (digits : Nat)
  deriving DecidableEq, Repr

/-- Table `std0x`: the elements for "01", "02", ..., "06". -/
def std0x (k : Nat) : Std :=
  match k with
  | 0 => .stdZeroMonth
  | 1 => .stdZeroDay
  | 2 => .stdZeroHour12
  | 3 => .stdZeroMinute
  | 4 => .stdZeroSecond
  | _ => .stdYear

/-- Go `isDigit(s, i)`. -/
def isDigit (s : Bytes) (i : Nat) : Bool :=
  match s.get? i with
  | none => false
  | some c => 48 ≤ c && c ≤ 57

/-- Go `startsWithLowerCase`. -/
def startsWithLowerCase (str : Bytes) : Bool :=
  match str with
  | [] => false
  | c :: _ => 97 ≤ c && c ≤ 122

/-- Length of the run of bytes equal to `ch` at the head of `s`. -/
def runLength (ch : Nat) : Bytes → Nat
  | [] => 0
  | c :: cs => if c = ch then runLength ch cs + 1 else 0

/-- The `switch` of `nextStdChunk` at one position: `rest` is `layout[i:]`,
headed by the byte `c`.  `some (std, n)` when an element of `n` bytes starts
here (the Go code returns), `none` when the loop moves on to `i+1`.  The
"_2006" case is returned as `stdLongYear` with the marker length `0`: there
the element starts one byte later. -/
def stdAt (c : Nat) (rest : Bytes) : Option (Std × Nat) :=
  if c = 74 then -- 'J': January, Jan
    if startsWith (toBytes "Jan") rest then
      if startsWith (toBytes "January") rest then some (.stdLongMonth, 7)
      else if !startsWithLowerCase (rest.drop 3) then some (.stdMonth, 3)
      else none
    else none
  else if c = 77 then -- 'M': Monday, Mon, MST
    if startsWith (toBytes "Mon") rest then
      if startsWith (toBytes "Monday") rest then some (.stdLongWeekDay, 6)
      else if !startsWithLowerCase (rest.drop 3) then some (.stdWeekDay, 3)
      else none -- the "MST" test that follows fails on a text starting "Mon"
    else if startsWith (toBytes "MST") rest then some (.stdTZ, 3)
    else none
  else if c = 48 then -- '0': 01, 02, 03, 04, 05, 06, 002
    match rest with
    | _ :: d :: tl =>
      if 49 ≤ d && d ≤ 54 then some (std0x (d - 49), 2)
      else if d = 48 && tl.head? = some 50 then some (.stdZeroYearDay, 3)
      else none
    | _ => none
  else if c = 49 then -- '1': 15, 1
    if rest.get? 1 = some 53 then some (.stdHour, 2) else some (.stdNumMonth, 1)
  else if c = 50 then -- '2': 2006, 2
    if startsWith (toBytes "2006") rest then some (.stdLongYear, 4) else some (.stdDay, 1)
  else if c = 95 then -- '_': _2, _2006, __2
    if rest.get? 1 = some 50 then
      if startsWith (toBytes "2006") (rest.drop 1) then some (.stdLongYear, 0)
      else some (.stdUnderDay, 2)
    else if rest.get? 1 = some 95 && rest.get? 2 = some 50 then some (.stdUnderYearDay, 3)
    else none
  else if c = 51 then some (.stdHour12, 1)
  else if c = 52 then some (.stdMinute, 1)
  else if c = 53 then some (.stdSecond, 1)
  else if c = 80 then -- 'P': PM
    if rest.get? 1 = some 77 then some (.stdPM, 2) else none
  else if c = 112 then -- 'p': pm
    if rest.get? 1 = some 109 then some (.stdpm, 2) else none
  else if c = 45 then -- '-': -070000, -07:00:00, -0700, -07:00, -07
    if startsWith (toBytes "-070000") rest then some (.stdNumSecondsTz, 7)
    else if startsWith (toBytes "-07:00:00") rest then some (.stdNumColonSecondsTZ, 9)
    else if startsWith (toBytes "-0700") rest then some (.stdNumTZ, 5)
    else if startsWith (toBytes "-07:00") rest then some (.stdNumColonTZ, 6)
    else if startsWith (toBytes "-07") rest then some (.stdNumShortTZ, 3)
    else none
  else if c = 90 then -- 'Z': Z070000, Z07:00:00, Z0700, Z07:00, Z07
    if startsWith (toBytes "Z070000") rest then some (.stdISO8601SecondsTZ, 7)
    else if startsWith (toBytes "Z07:00:00") rest then some (.stdISO8601ColonSecondsTZ, 9)
    else if startsWith (toBytes "Z0700") rest then some (.stdISO8601TZ, 5)
    else if startsWith (toBytes "Z07:00") rest then some (.stdISO8601ColonTZ, 6)
    else if startsWith (toBytes "Z07") rest then some (.stdISO8601ShortTZ, 3)
    else none
  else if c = 46 || c = 44 then -- '.', ',': fractional seconds
    match rest.get? 1 with
    | some ch =>
      if ch = 48 || ch = 57 then
        let n := runLength ch (rest.drop 1)
        if !isDigit rest (n + 1) then
          some (if ch = 57 then .stdFracSecond9 (n % 4096) else .stdFracSecond0 (n % 4096), n + 1)
        else none
      else none
    | none => none
  else none

/-- Go `nextStdChunk`, the loop over `i`: `pre` is `layout[0:i]` reversed,
the second argument is `layout[i:]`.  Result: the text before the element, the
element, the text after. -/
def nextStdChunkFrom (pre : Bytes) : Bytes → Bytes × Std × Bytes
  | [] => (pre.reverse, .zero, [])
  | c :: cs =>
    match stdAt c (c :: cs) with
    | some (std, 0) => ((c :: pre).reverse, std, cs.drop 4)
    | some (std, n) => (pre.reverse, std, (c :: cs).drop n)
    | none => nextStdChunkFrom (c :: pre) cs

/-- Go `nextStdChunk(layout)`. -/
def nextStdChunk (layout : Bytes) : Bytes × Std × Bytes :=
  nextStdChunkFrom [] layout

/-! ## Helpers of `parse` -/

/-- Go `match(s1, s2)`: equality ignoring ASCII case; both have the same length
at every call (`lookup` slices `val` to the length of the table entry). -/
def matchFold : Bytes → Bytes → Bool
  | c1 :: r1, c2 :: r2 =>
    (if c1 ≠ c2 then
      let d1 := c1 ||| 32
      let d2 := c2 ||| 32
      !(d1 ≠ d2 || d1 < 97 || d1 > 122)
    else true) && matchFold r1 r2
  | _, _ => true

/-- Go `lookup(tab, val)`, from index `i` of the table on: the index of the
first entry that `val` starts with (ignoring case) and the rest of `val`. -/
def lookupFrom (i : Nat) : List Bytes → Bytes → Option (Int × Bytes)
  | [], _ => none
  | v :: tab, val =>
    if val.length ≥ v.length && matchFold (val.take v.length) v then
      some (i, val.drop v.length)
    else lookupFrom (i + 1) tab val

/-- Go `lookup(tab, val)`; `none` is `errBad`. -/
def lookup (tab : List Bytes) (val : Bytes) : Option (Int × Bytes) :=
  lookupFrom 0 tab val

def longDayNames : List Bytes :=
  ["Sunday", "Monday", "Tuesday", "Wednesday", "Thursday", "Friday", "Saturday"].map toBytes

def shortDayNames : List Bytes :=
  ["Sun", "Mon", "Tue", "Wed", "Thu", "Fri", "Sat"].map toBytes

def shortMonthNames : List Bytes :=
  ["Jan", "Feb", "Mar", "Apr", "May", "Jun", "Jul", "Aug", "Sep", "Oct", "Nov", "Dec"].map toBytes

def longMonthNames : List Bytes :=
  ["January", "February", "March", "April", "May", "June", "July", "August",
   "September", "October", "November", "December"].map toBytes

/-- Go `getnum(s, fixed)`: one or two digits (`fixed` forces two); `none` is
`errBad`. -/
def getnum (s : Bytes) (fixed : Bool) : Option (Int × Bytes) :=
  if !isDigit s 0 then none
  else if !isDigit s 1 then
    if fixed then none else some ((s.headD 0 : Nat) - 48, s.drop 1)
  else some ((((s.headD 0 - 48) * 10 + (s.getD 1 0 - 48) : Nat) : Int), s.drop 2)

/-- The loop of Go `getnum3`: value and count of the leading digits, at most
`k` of them. -/
def getnum3Loop : Nat → Nat → Bytes → Nat × Nat
  | 0, n, _ => (n, 0)
  | k + 1, n, s =>
    match s with
    | c :: cs =>
      if 48 ≤ c && c ≤ 57 then
        let r := getnum3Loop k (n * 10 + (c - 48)) cs
        (r.1, r.2 + 1)
      else (n, 0)
    | [] => (n, 0)

/-- Go `getnum3(s, fixed)`: one to three digits (`fixed` forces three). -/
def getnum3 (s : Bytes) (fixed : Bool) : Option (Int × Bytes) :=
  let r := getnum3Loop 3 0 s
  if r.2 = 0 || (fixed && r.2 ≠ 3) then none else some (r.1, s.drop r.2)

/-- Go `cutspace`. -/
def cutspace : Bytes → Bytes
  | [] => []
  | c :: cs => if c = 32 then cutspace cs else c :: cs

/-- Go `skip(value, prefix)`, the loop bounded by the length of the text to
skip (each round shortens it); `none` is `errBad`. -/
def skipLoop : Nat → Bytes → Bytes → Option Bytes
  | 0, value, _ => some value
  | fuel + 1, value, pre =>
    match pre with
    | [] => some value
    | p :: ps =>
      if p = 32 then
        if value.length > 0 && value.head? ≠ some 32 then none
        else skipLoop fuel (cutspace value) (cutspace (p :: ps))
      else
        match value with
        | [] => none
        | v :: vs => if v ≠ p then none else skipLoop fuel vs ps

/-- Go `skip(value, prefix)`. -/
def skip (value pre : Bytes) : Option Bytes :=
  skipLoop pre.length value pre

/-- Go `leadingInt(s)`: the leading decimal digits of `s` as a number and the
rest; `none` is `errLeadingInt` (the value passes `1<<63`). -/
def leadingIntFrom (x : Nat) : Bytes → Option (Nat × Bytes)
  | [] => some (x, [])
  | c :: cs =>
    if c < 48 || c > 57 then some (x, c :: cs)
    else if x > 2 ^ 63 / 10 then none
    else
      let y := x * 10 + c - 48
      if y > 2 ^ 63 then none else leadingIntFrom y cs

/-- Go `leadingInt(s)`. -/
def leadingInt (s : Bytes) : Option (Nat × Bytes) :=
  leadingIntFrom 0 s

/-- Go `atoi(s)`: an optional sign and digits up to the end of `s`; `none` is
`errAtoi`.  The conversion `int(q)` wraps at `2^63`. -/
def atoi (s : Bytes) : Option Int :=
  let neg := s.head? = some 45
  let s1 := if s.head? = some 45 || s.head? = some 43 then s.drop 1 else s
  match leadingInt s1 with
  | none => none
  | some (q, rem) =>
    if rem.length > 0 then none
    else
      let x : Int := if q = 2 ^ 63 then -(2 ^ 63 : Int) else q
      some (if neg then (if q = 2 ^ 63 then x else -x) else x)

/-- Go `commaOrPeriod`. -/
def commaOrPeriod (b : Nat) : Bool :=
  b = 46 || b = 44

/-- The result of Go `parseNanoseconds`: a value, `errBad`/`errAtoi`, or a
range error. -/
inductive NanoResult where
  | ok (ns : Int)
  | bad
  | range

/-- Go `parseNanoseconds(value, nbytes)`; the callers make sure that
`value` holds at least `nbytes ≥ 1` bytes. -/
def parseNanoseconds (value : Bytes) (nbytes : Nat) : NanoResult :=
  if !commaOrPeriod (value.headD 0) then .bad
  else
    let value1 := if nbytes > 10 then value.take 10 else value
    let nbytes1 := if nbytes > 10 then 10 else nbytes
    match atoi ((value1.take nbytes1).drop 1) with
    | none => .bad
    | some ns =>
      if ns < 0 then .range
      else .ok (ns * 10 ^ (10 - nbytes1))

/-- Go `parseSignedOffset(value)`: the length of a sign and an hour offset of
at most 23 at the head of `value`, or 0. -/
def parseSignedOffset (value : Bytes) : Nat :=
  match value with
  | [] => 0
  | sign :: tl =>
    if sign ≠ 45 && sign ≠ 43 then 0
    else
      match leadingInt tl with
      | none => 0
      | some (x, rem) =>
        if tl = rem then 0
        else if x > 23 then 0
        else value.length - rem.length

/-- Go `parseGMT(value)`; `value` starts with "GMT". -/
def parseGMT (value : Bytes) : Nat :=
  let v := value.drop 3
  if v.length = 0 then 3 else 3 + parseSignedOffset v

/-- Number of leading upper-case letters of `value`, counted up to `k`. -/
def countUpper : Nat → Bytes → Nat
  | 0, _ => 0
  | _ + 1, [] => 0
  | k + 1, c :: cs => if c < 65 || 90 < c then 0 else countUpper k cs + 1

/-- Go `parseTimeZone(value)`: the length of the time zone abbreviation at the
head of `value`; `none` is `ok == false`. -/
def parseTimeZone (value : Bytes) : Option Nat :=
  if value.length < 3 then none
  else if startsWith (toBytes "ChST") value || startsWith (toBytes "MeST") value then some 4
  else if startsWith (toBytes "GMT") value then some (parseGMT value)
  else if value.head? = some 43 || value.head? = some 45 then
    let length := parseSignedOffset value
    if length > 0 then some length else none
  else
    let nUpper := countUpper 6 value
    if nUpper = 5 then
      if value.get? 4 = some 84 then some 5 else none
    else if nUpper = 4 then
      if value.get? 3 = some 84 || startsWith (toBytes "WITA") value then some 4 else none
    else if nUpper = 3 then some 3
    else none

/-! ## `Time`, `Date` -/

/-- A `*Location` as `parse` can attach one to a time: `UTC`, the process's
`Local`, or the result of `FixedZone(name, offset)`. -/
inductive Location where
  | UTC
  | Local
  | FixedZone (name : Bytes) (offset : Int)
  deriving DecidableEq, Repr

/-- A `time.Time`: the instant (seconds since the Unix epoch and nanoseconds)
and the location it is shown in. -/
structure Time where
  unixSec : Int
  nsec : Int
  loc : Location
  deriving DecidableEq, Repr

/-- What `parse` asks of the location `Local`, which the process's environment
defines: `lookup(sec)` (zone name and offset in use at an instant) and
`lookupName(name, unix)` (offset of a zone abbreviation, if `Local` knows it). -/
structure LocalZone where
  lookup : Int → Bytes × Int
  lookupName : Bytes → Int → Option Int

/-- Go `isLeap`. -/
def isLeap (year : Int) : Bool :=
  year % 4 = 0 && (year % 100 ≠ 0 || year % 400 = 0)

/-- Table `daysBefore`: days of a non-leap year before the end of month `m`
(`daysBefore[0] = 0`). -/
def daysBefore (m : Int) : Int :=
  match m with
  | 0 => 0
  | 1 => 31
  | 2 => 31 + 28
  | 3 => 31 + 28 + 31
  | 4 => 31 + 28 + 31 + 30
  | 5 => 31 + 28 + 31 + 30 + 31
  | 6 => 31 + 28 + 31 + 30 + 31 + 30
  | 7 => 31 + 28 + 31 + 30 + 31 + 30 + 31
  | 8 => 31 + 28 + 31 + 30 + 31 + 30 + 31 + 31
  | 9 => 31 + 28 + 31 + 30 + 31 + 30 + 31 + 31 + 30
  | 10 => 31 + 28 + 31 + 30 + 31 + 30 + 31 + 31 + 30 + 31
  | 11 => 31 + 28 + 31 + 30 + 31 + 30 + 31 + 31 + 30 + 31 + 30
  | _ => 31 + 28 + 31 + 30 + 31 + 30 + 31 + 31 + 30 + 31 + 30 + 31

/-- Go `daysIn(m, year)`. -/
def daysIn (m : Int) (year : Int) : Int :=
  if m = 2 && isLeap year then 29 else daysBefore m - daysBefore (m - 1)

/-- Go `norm(hi, lo, base)`: `lo` brought into `[0, base)`, carrying into `hi`. -/
def norm (hi lo base : Int) : Int × Int :=
  let n1 := (-lo - 1) / base + 1
  let hi1 := if lo < 0 then hi - n1 else hi
  let lo1 := if lo < 0 then lo + n1 * base else lo
  let n2 := lo1 / base
  if lo1 ≥ base then (hi1 + n2, lo1 - n2 * base) else (hi1, lo1)

/-- Constant `absoluteZeroYear`. -/
def absoluteZeroYear : Int := -292277022399

/-- Constant `absoluteToInternal + internalToUnix`, in seconds. -/
def absoluteToUnix : Int :=
  (absoluteZeroYear - 1) * 31556952 - (1969 * 365 + 1969 / 4 - 1969 / 100 + 1969 / 400) * 86400

/-- Go `daysSinceEpoch(year)`: days from the absolute epoch to January 1 of
`year`. -/
def daysSinceEpoch (year : Int) : Int :=
  let y := year - absoluteZeroYear
  let n400 := y / 400
  let y1 := y - 400 * n400
  let n100 := y1 / 100
  let y2 := y1 - 100 * n100
  let n4 := y2 / 4
  let y3 := y2 - 4 * n4
  (365 * 400 + 97) * n400 + (365 * 100 + 24) * n100 + (365 * 4 + 1) * n4 + 365 * y3

/-- Go `Date(year, month, day, hour, min, sec, nsec, UTC)` (`parse` builds
every time in `UTC` before it sets the location): the Unix seconds and the
nanoseconds of the date. -/
def Date (year month day hour min sec nsec : Int) : Int × Int :=
  let ym := norm year (month - 1) 12
  let month1 := ym.2 + 1
  let sn := norm sec nsec 1000000000
  let ms := norm min sn.1 60
  let hm := norm hour ms.1 60
  let dh := norm day hm.1 24
  let d := daysSinceEpoch ym.1 + daysBefore (month1 - 1)
    + (if isLeap ym.1 && month1 ≥ 3 then 1 else 0) + (dh.1 - 1)
  let abs := d * 86400 + (dh.2 * 3600 + hm.2 * 60 + ms.2)
  (abs + absoluteToUnix, sn.2)

/-! ## `parse` -/

/-- The variables of `parse` ("time being constructed"), with Go's initial
values.  `z` records `z != nil`: the loop only ever assigns `UTC` to it. -/
structure Fields where
  year : Int := 0
  month : Int := -1
  day : Int := -1
  yday : Int := -1
  hour : Int := 0
  min : Int := 0
  sec : Int := 0
  nsec : Int := 0
  z : Bool := false
  zoneOffset : Int := -1
  zoneName : Bytes := []
  amSet : Bool := false
  pmSet : Bool := false
  deriving DecidableEq, Repr

/-- Why `parse` fails: each constructor is one `newParseError` of the Go code. -/
inductive ParseError where
  | bad
  | extraText
  | range (what : String)
  | dayOfYearOutOfRange
  | dayOfYearMonthMismatch
  | dayOfYearDayMismatch
  | dayOutOfRange
  | loopBound
  deriving DecidableEq, Repr

/-- Outcome of one case of the `switch` in `parse`: the updated variables and
the rest of `value`, `err != nil`, or `rangeErrString != ""`. -/
inductive CaseResult where
  | ok (f : Fields) (value : Bytes)
  | bad
  | range (what : String)

/-- Number of leading digits of `s`. -/
def digitRun : Bytes → Nat
  | [] => 0
  | c :: cs => if 48 ≤ c && c ≤ 57 then digitRun cs + 1 else 0

/-- The time zone offset cases of `parse` (`stdISO8601TZ` ... `stdNumColonSecondsTZ`):
the sign and the two-digit hours, minutes and seconds are cut out of `value`
by the form of the element, read with `getnum`, and range-tested; the three
range tests run in the order hour, minute, second, each overwriting
`rangeErrString`, and a range error is reported before `err`. -/
def parseOffset (std : Std) (f : Fields) (value : Bytes) : CaseResult :=
  if (std = .stdISO8601TZ || std = .stdISO8601ShortTZ || std = .stdISO8601ColonTZ)
      && value.head? = some 90 then
    .ok { f with z := true } (value.drop 1)
  else
    let parts : Option (Bytes × Bytes × Bytes × Bytes × Bytes) :=
      if std = .stdISO8601ColonTZ || std = .stdNumColonTZ then
        if value.length < 6 then none
        else if value.get? 3 ≠ some 58 then none
        else some (value.take 1, (value.drop 1).take 2, (value.drop 4).take 2, toBytes "00",
          value.drop 6)
      else if std = .stdNumShortTZ || std = .stdISO8601ShortTZ then
        if value.length < 3 then none
        else some (value.take 1, (value.drop 1).take 2, toBytes "00", toBytes "00", value.drop 3)
      else if std = .stdISO8601ColonSecondsTZ || std = .stdNumColonSecondsTZ then
        if value.length < 9 then none
        else if value.get? 3 ≠ some 58 || value.get? 6 ≠ some 58 then none
        else some (value.take 1, (value.drop 1).take 2, (value.drop 4).take 2,
          (value.drop 7).take 2, value.drop 9)
      else if std = .stdISO8601SecondsTZ || std = .stdNumSecondsTz then
        if value.length < 7 then none
        else some (value.take 1, (value.drop 1).take 2, (value.drop 3).take 2,
          (value.drop 5).take 2, value.drop 7)
      else
        if value.length < 5 then none
        else some (value.take 1, (value.drop 1).take 2, (value.drop 3).take 2, toBytes "00",
          value.drop 5)
    match parts with
    | none => .bad
    | some (sign, hour, min, seconds, value1) =>
      -- `hr, _, err = getnum(hour, true)`, then `mm` and `ss` while `err == nil`;
      -- a number that is not read stays 0
      let okH := (getnum hour true).isSome
      let hr : Int := ((getnum hour true).map Prod.fst).getD 0
      let okM := okH && (getnum min true).isSome
      let mm : Int := if okH then ((getnum min true).map Prod.fst).getD 0 else 0
      let okS := okM && (getnum seconds true).isSome
      let ss : Int := if okM then ((getnum seconds true).map Prod.fst).getD 0 else 0
      -- the range test uses `>`: offsets of 24 hours, 60 minutes, 60 seconds pass
      if ss > 60 then .range "time zone offset second"
      else if mm > 60 then .range "time zone offset minute"
      else if hr > 24 then .range "time zone offset hour"
      else if !okS then .bad
      else
        let zoneOffset := (hr * 60 + mm) * 60 + ss
        if sign.head? = some 43 then .ok { f with zoneOffset := zoneOffset } value1
        else if sign.head? = some 45 then .ok { f with zoneOffset := -zoneOffset } value1
        else .bad

/-- The `switch std & stdMask` of `parse`: one layout element `std` read at
the head of `value`; `layout` is the layout after the element. -/
def parseCase (std : Std) (layout : Bytes) (f : Fields) (value : Bytes) : CaseResult :=
  match std with
  | .stdYear =>
    if value.length < 2 then .bad
    else
      match atoi (value.take 2) with
      | none => .bad
      | some y => .ok { f with year := if y ≥ 69 then y + 1900 else y + 2000 } (value.drop 2)
  | .stdLongYear =>
    if value.length < 4 || !isDigit value 0 then .bad
    else
      match atoi (value.take 4) with
      | none => .bad
      | some y => .ok { f with year := y } (value.drop 4)
  | .stdMonth =>
    match lookup shortMonthNames value with
    | none => .bad
    | some (m, v) => .ok { f with month := m + 1 } v
  | .stdLongMonth =>
    match lookup longMonthNames value with
    | none => .bad
    | some (m, v) => .ok { f with month := m + 1 } v
  | .stdNumMonth | .stdZeroMonth =>
    match getnum value (std = .stdZeroMonth) with
    | none => .bad
    | some (m, v) => if m ≤ 0 || 12 < m then .range "month" else .ok { f with month := m } v
  | .stdWeekDay =>
    match lookup shortDayNames value with
    | none => .bad
    | some (_, v) => .ok f v
  | .stdLongWeekDay =>
    match lookup longDayNames value with
    | none => .bad
    | some (_, v) => .ok f v
  | .stdDay | .stdUnderDay | .stdZeroDay =>
    let value1 := if std = .stdUnderDay && value.head? = some 32 then value.drop 1 else value
    match getnum value1 (std = .stdZeroDay) with
    | none => .bad
    | some (d, v) => .ok { f with day := d } v
  | .stdUnderYearDay | .stdZeroYearDay =>
    let value1 := if std = .stdUnderYearDay && value.head? = some 32 then value.drop 1 else value
    let value2 := if std = .stdUnderYearDay && value1.head? = some 32 then value1.drop 1 else value1
    match getnum3 value2 (std = .stdZeroYearDay) with
    | none => .bad
    | some (d, v) => .ok { f with yday := d } v
  | .stdHour =>
    match getnum value false with
    | none => .bad
    | some (h, v) => if h < 0 || 24 ≤ h then .range "hour" else .ok { f with hour := h } v
  | .stdHour12 | .stdZeroHour12 =>
    match getnum value (std = .stdZeroHour12) with
    | none => .bad
    | some (h, v) => if h < 0 || 12 < h then .range "hour" else .ok { f with hour := h } v
  | .stdMinute | .stdZeroMinute =>
    match getnum value (std = .stdZeroMinute) with
    | none => .bad
    | some (m, v) => if m < 0 || 60 ≤ m then .range "minute" else .ok { f with min := m } v
  | .stdSecond | .stdZeroSecond =>
    match getnum value (std = .stdZeroSecond) with
    | none => .bad
    | some (s, v) =>
      if s < 0 || 60 ≤ s then .range "second"
      else if v.length ≥ 2 && commaOrPeriod (v.headD 0) && isDigit v 1 then
        match (nextStdChunk layout).2.1 with
        | .stdFracSecond0 _ => .ok { f with sec := s } v
        | .stdFracSecond9 _ => .ok { f with sec := s } v
        | _ =>
          let n := 1 + digitRun (v.drop 1)
          match parseNanoseconds v n with
          | .ok ns => .ok { f with sec := s, nsec := ns } (v.drop n)
          | .bad => .bad
          | .range => .range "fractional second"
      else .ok { f with sec := s } v
  | .stdPM =>
    if value.length < 2 then .bad
    else if value.take 2 = toBytes "PM" then .ok { f with pmSet := true } (value.drop 2)
    else if value.take 2 = toBytes "AM" then .ok { f with amSet := true } (value.drop 2)
    else .bad
  | .stdpm =>
    if value.length < 2 then .bad
    else if value.take 2 = toBytes "pm" then .ok { f with pmSet := true } (value.drop 2)
    else if value.take 2 = toBytes "am" then .ok { f with amSet := true } (value.drop 2)
    else .bad
  | .stdTZ =>
    if startsWith (toBytes "UTC") value then .ok { f with z := true } (value.drop 3)
    else
      match parseTimeZone value with
      | none => .bad
      | some n => .ok { f with zoneName := value.take n } (value.drop n)
  | .stdFracSecond0 digits =>
    let ndigit := 1 + digits
    if value.length < ndigit then .bad
    else
      match parseNanoseconds value ndigit with
      | .ok ns => .ok { f with nsec := ns } (value.drop ndigit)
      | .bad => .bad
      | .range => .range "fractional second"
  | .stdFracSecond9 _ =>
    if value.length < 2 || !commaOrPeriod (value.headD 0) || !isDigit value 1 then .ok f value
    else
      let i := digitRun (value.drop 1)
      match parseNanoseconds value (1 + i) with
      | .ok ns => .ok { f with nsec := ns } (value.drop (1 + i))
      | .bad => .bad
      | .range => .range "fractional second"
  | .zero => .ok f value
  | _ => parseOffset std f value

/-- The `for` loop of `parse` ("each iteration processes one std value"): the
variables once the layout is used up and `value` is read to its end, or the
error returned.  Every round shortens `layout`; `fuel` bounds the rounds. -/
def parseLoop : Nat → Bytes → Bytes → Fields → Except ParseError Fields
  | 0, _, _, _ => .error .loopBound
  | fuel + 1, layout, value, f =>
    let chunk := nextStdChunk layout
    match skip value chunk.1 with
    | none => .error .bad
    | some value1 =>
      if chunk.2.1 = .zero then
        if value1.length ≠ 0 then .error .extraText else .ok f
      else
        match parseCase chunk.2.1 chunk.2.2 f value1 with
        | .range what => .error (.range what)
        | .bad => .error .bad
        | .ok f1 value2 => parseLoop fuel chunk.2.2 value2 f1

/-- The day-of-year step of `parse` ("convert yday to day, month"): month and
day of the date, from the day of the year when the layout has one, and with
January and day 1 as defaults. -/
def monthDay (f : Fields) : Except ParseError (Int × Int) :=
  if f.yday ≥ 0 then
    let leap := isLeap f.year
    let md : Int × Int := if leap && f.yday = 31 + 29 then (2, 29) else (0, 0)
    let yday := if leap && f.yday ≠ 31 + 29 && f.yday > 31 + 29 then f.yday - 1 else f.yday
    if yday < 1 || yday > 365 then .error .dayOfYearOutOfRange
    else
      let m1 := (yday - 1) / 31 + 1
      let m2 := if daysBefore m1 < yday then m1 + 1 else m1
      let m := if md.1 = 0 then m2 else md.1
      let d := if md.1 = 0 then yday - daysBefore (m2 - 1) else md.2
      if f.month ≥ 0 && f.month ≠ m then .error .dayOfYearMonthMismatch
      else if f.day ≥ 0 && f.day ≠ d then .error .dayOfYearDayMismatch
      else .ok (m, d)
  else .ok (if f.month < 0 then 1 else f.month, if f.day < 0 then 1 else f.day)

/-- The hour of `parse` once "PM" or "AM" is taken into account. -/
def clockHour (f : Fields) : Int :=
  if f.pmSet && f.hour < 12 then f.hour + 12
  else if f.amSet && f.hour = 12 then 0
  else f.hour

/-- The last part of `parse`: the time returned for the date `t` (the result
of `Date(..., UTC)`), by the zone read from the value.  A zone given as `Z` or
`UTC`; else a numeric offset; else a zone abbreviation, which `Local` resolves
or which makes a fabricated zone; else `UTC`, the default location. -/
def locate (Local : LocalZone) (f : Fields) (t : Int × Int) : Time :=
  if f.z then { unixSec := t.1, nsec := t.2, loc := .UTC }
  else if f.zoneOffset ≠ -1 then
    let unix := t.1 - f.zoneOffset
    let zone := Local.lookup unix
    if zone.2 = f.zoneOffset && (f.zoneName = [] || zone.1 = f.zoneName) then
      { unixSec := unix, nsec := t.2, loc := .Local }
    else { unixSec := unix, nsec := t.2, loc := .FixedZone f.zoneName f.zoneOffset }
  else if f.zoneName ≠ [] then
    match Local.lookupName f.zoneName t.1 with
    | some offset => { unixSec := t.1 - offset, nsec := t.2, loc := .Local }
    | none =>
      let offset : Int :=
        if f.zoneName.length > 3 && startsWith (toBytes "GMT") f.zoneName then
          (atoi (f.zoneName.drop 3)).getD 0 * 3600
        else 0
      { unixSec := t.1, nsec := t.2, loc := .FixedZone f.zoneName offset }
  else { unixSec := t.1, nsec := t.2, loc := .UTC }

/-- The end of `parse`, after the loop: the hour of a 12-hour clock, month and
day, the check of the day of the month, and the location. -/
def finish (Local : LocalZone) (f : Fields) : Except ParseError Time :=
  match monthDay f with
  | .error e => .error e
  | .ok (month, day) =>
    if day < 1 || day > daysIn month f.year then .error .dayOutOfRange
    else .ok (locate Local f (Date f.year month day (clockHour f) f.min f.sec f.nsec))

/-- Go `parse(layout, value, UTC, local)`. -/
def parse (Local : LocalZone) (layout value : Bytes) : Except ParseError Time :=
  match parseLoop (layout.length + 1) layout value {} with
  | .error e => .error e
  | .ok f => finish Local f

/-- Go `time.Parse(layout, value)`, that is `parse(layout, value, UTC, Local)`. -/
def Parse (Local : LocalZone) (layout value : String) : Except ParseError Time :=
  parse Local (toBytes layout) (toBytes value)

end time

namespace utils

/-- The table `dateFormats` of `utils/utils.go`. -/
def dateFormats : List String :=
  [ time.RFC822,
    time.RFC822Z,
    time.RFC3339,
    time.UnixDate,
    time.RubyDate,
    time.RFC850,
    time.RFC1123Z,
    time.RFC1123,
    time.ANSIC,
    "Mon, January 2 2006 15:04:05 -0700",
    "Mon, Jan 2 2006 15:04:05 -700",
    "Mon, Jan 2 2006 15:04:05 -0700" ]

/-- The loop `for _, format := range dateFormats` of `ParseDate` over the
formats still to try, and the error built after it. -/
def ParseDateFrom (Local : time.LocalZone) (dateString : String) :
    List String → Except String time.Time
  | [] => .error ("Unknown date format: " ++ dateString)
  | format :: rest =>
    match time.Parse Local format dateString with
    | .ok dateTime => .ok dateTime
    | .error _ => ParseDateFrom Local dateString rest

/-- Go `ParseDate(dateString)`: `.ok dateTime` is `(dateTime, nil)`,
`.error msg` is a non-nil `err` with message `msg`. -/
def ParseDate (Local : time.LocalZone) (dateString : String) : Except String time.Time :=
  ParseDateFrom Local dateString dateFormats

end utils

/-! ## Specification-level functions for the properties of `ParseDate` -/

deriving instance DecidableEq for Except

namespace time

/-- Whether `time.Parse(layout, value)` returns a time (`err == nil`), decided
without `Local`: the loop of `parse` succeeds and the day checks pass. -/
def accepts (layout value : String) : Bool :=
  match parseLoop ((toBytes layout).length + 1) (toBytes layout) (toBytes value) {} with
  | .error _ => false
  | .ok f =>
    match monthDay f with
    | .error _ => false
    | .ok (m, d) => !(d < 1 || d > daysIn m f.year)

end time

namespace utils

/-- The first format of a list that `time.Parse` accepts for `dateString`. -/
def firstAccepted (dateString : String) : List String → Option String
  | [] => none
  | format :: rest =>
    if time.accepts format dateString then some format else firstAccepted dateString rest

/-- One literal example for each entry of `dateFormats`, in the order of the
table: the format and a date written in it. -/
def formatExamples : List (String × String) :=
  [ (time.RFC822, "02 Jan 06 15:04 MST"),
    (time.RFC822Z, "02 Jan 06 15:04 -0700"),
    (time.RFC3339, "2006-01-02T15:04:05-07:00"),
    (time.UnixDate, "Mon Jan  2 15:04:05 MST 2006"),
    (time.RubyDate, "Mon Jan 02 15:04:05 -0700 2006"),
    (time.RFC850, "Monday, 02-Jan-06 15:04:05 MST"),
    (time.RFC1123Z, "Mon, 02 Jan 2006 15:04:05 -0700"),
    (time.RFC1123, "Mon, 02 Jan 2006 15:04:05 MST"),
    (time.ANSIC, "Mon Jan  2 15:04:05 2006"),
    ("Mon, January 2 2006 15:04:05 -0700", "Mon, January 2 2006 15:04:05 -0700"),
    ("Mon, Jan 2 2006 15:04:05 -700", "Mon, Jan 2 2006 15:04:05 -700"),
    ("Mon, Jan 2 2006 15:04:05 -0700", "Mon, Jan 2 2006 15:04:05 -0700") ]

/-- A `time.Local` for the examples: the zone "UTC" at offset 0, no other
abbreviation known. -/
def utcLocal : time.LocalZone :=
  { lookup := fun _ => (toBytes "UTC", 0)
    lookupName := fun name _ => if name = toBytes "UTC" then some 0 else none }

end utils

namespace rss_reader

/-- The struct `RssItem`. -/
structure RssItem where
  Title : String
  Source : String
  SourceURL : String
  Link : String
  PublishDate : time.Time
  Description : String
  deriving DecidableEq, Repr

/-- The struct `rssItem`: one `item` element of a decoded document. -/
structure rssItem where
  Title : String
  Description : String
  Link : String
  PublishDate : String
  deriving DecidableEq, Repr

/-- The struct `rssChannel`. -/
structure rssChannel where
  Source : String
  Items : List rssItem
  deriving DecidableEq, Repr

/-- The struct `rssFeed`. -/
structure rssFeed where
  Channel : rssChannel
  deriving DecidableEq, Repr

/-- An `http.Response` as far as `fetchItemsFromURL` reads it: the status code
and the bytes that `ioutil.ReadAll(response.Body)` returns (its error is
dropped by the code). -/
structure Response where
  StatusCode : Int
  Body : Bytes
  deriving DecidableEq, Repr

/-- What lies outside the repository: the network (`http.Get`), the decoder
(`xml.Unmarshal` into an `rssFeed`) and the time zone of the process
(`time.Local`).  `.error` is a non-nil `err`.  Every retrieval ends, and
within one call of `Parse` a url is retrieved with the same outcome each time
it occurs in the list. -/
structure World where
  httpGet : String → Except String Response
  xmlUnmarshal : Bytes → Except String rssFeed
  Local : time.LocalZone

/-- A send of a goroutine to `Parse`: an `RssItem` on `itemsCh`, or `ping{}` on
`quitCh` (`workersQuitCh`). -/
inductive Msg where
  | item (i : RssItem)
  | quit
  deriving DecidableEq, Repr

/-- The loop `for _, i := range rssFeed.Channel.Items` of `fetchItemsFromURL`:
the sends on `itemsCh` it performs, in order.  A date that `ParseDate` rejects
ends the function (`return`). -/
def sendItems (w : World) (source url : String) : List rssItem → List Msg
  | [] => []
  | i :: rest =>
    match utils.ParseDate w.Local i.PublishDate with
    | .error _ => []
    | .ok date =>
      Msg.item
        { Title := i.Title
          Description := i.Description
          Link := i.Link
          PublishDate := date
          Source := source
          SourceURL := url } :: sendItems w source url rest

/-- The body of `fetchItemsFromURL`, without the deferred call: the sends it
performs up to its `return` or its end. -/
def fetchBody (w : World) (url : String) : List Msg :=
  match w.httpGet url with
  | .error _ => []
  | .ok response =>
    if response.StatusCode > 299 || response.StatusCode < 200 then []
    else
      match w.xmlUnmarshal response.Body with
      | .error _ => []
      | .ok rssFeed => sendItems w rssFeed.Channel.Source url rssFeed.Channel.Items

/-- Go `fetchItemsFromURL(url, itemsCh, quitCh)`: the sequence of sends of the
goroutine.  The deferred `quitCh <- ping{}` runs when the body has returned. -/
def fetchItemsFromURL (w : World) (url : String) : List Msg :=
  fetchBody w url ++ [Msg.quit]

/-- The first goroutine that has a send pending, counting from `k`. -/
def firstReady (k : Nat) : List (List Msg) → Option (Nat × Msg × List Msg)
  | [] => none
  | [] :: qs => firstReady (k + 1) qs
  | (m :: rest) :: _ => some (k, m, rest)

/-- One `select` of `Parse`: the goroutine whose send is received, the message,
and what this goroutine has left to send.  Both channels are unbuffered, so
the message is the next send of a goroutine that has one pending; which
goroutine it is, the scheduler decides: goroutine `choice` if it has a send
pending, the first goroutine that has one otherwise.  `none`: no goroutine
will ever send, the `select` blocks for ever. -/
def nextSend (choice : Nat) (pending : List (List Msg)) : Option (Nat × Msg × List Msg) :=
  match pending.getD choice [] with
  | m :: rest => some (choice, m, rest)
  | [] => firstReady 0 pending

/-- What the collecting loop of `Parse` has done when it leaves: the collected
`items`, the messages received with the goroutine each came from, in order of
arrival, and the sends still pending in each goroutine. -/
structure Collected where
  items : List RssItem
  received : List (Nat × Msg)
  pending : List (List Msg)
  deriving DecidableEq, Repr

/-- The loop `for { select { ... }; if workersDoneCount == numberOfUrls { break } }`
of `Parse`.  `pending` holds, for each goroutine, the sends it has still to
perform; `sched` the scheduler's choices, one per `select` (0 when it runs
out); `fuel` bounds the number of rounds.  `none`: the loop does not leave. -/
def collect (numberOfUrls : Nat) :
    Nat → List Nat → List (List Msg) → List RssItem → Nat → List (Nat × Msg) → Option Collected
  | 0, _, _, _, _, _ => none
  | fuel + 1, sched, pending, items, workersDoneCount, received =>
    match nextSend (sched.headD 0) pending with
    | none => none
    | some (k, m, rest) =>
      let items1 := match m with
        | .item item => items ++ [item]
        | .quit => items
      let workersDoneCount1 := match m with
        | .item _ => workersDoneCount
        | .quit => workersDoneCount + 1
      if workersDoneCount1 = numberOfUrls then
        some { items := items1, received := received ++ [(k, m)], pending := pending.set k rest }
      else
        collect numberOfUrls fuel sched.tail (pending.set k rest) items1 workersDoneCount1
          (received ++ [(k, m)])

/-- A call of `Parse` that returns: the results `items` and `err` (`none` is
`nil`), the urls for which a goroutine was started, the messages received and
the sends left pending at the return. -/
structure Run where
  items : List RssItem
  err : Option String
  started : List String
  received : List (Nat × Msg)
  pending : List (List Msg)
  deriving DecidableEq, Repr

/-- Go `Parse(urls)`, run in the world `w` under the scheduler `sched`.  One
goroutine per url is started; the loop can take as many rounds as there are
sends in all goroutines.  `none`: the call does not return. -/
def Parse (w : World) (urls : List String) (sched : List Nat) : Option Run :=
  let numberOfUrls := urls.length
  if numberOfUrls = 0 then
    some { items := [], err := some "Urls list is empty", started := [], received := [],
           pending := [] }
  else
    let goroutines := urls.map (fetchItemsFromURL w)
    match collect numberOfUrls (goroutines.map List.length).sum sched goroutines [] 0 [] with
    | none => none
    | some c =>
      some { items := c.items, err := none, started := urls, received := c.received,
             pending := c.pending }

/-! ## Specification-level functions for the properties of `Parse` -/

/-- The items among a sequence of messages, in order. -/
def itemsOf : List Msg → List RssItem
  | [] => []
  | .item i :: ms => i :: itemsOf ms
  | .quit :: ms => itemsOf ms

/-- The messages received from goroutine `k`, in order of arrival. -/
def fromGoroutine (k : Nat) (received : List (Nat × Msg)) : List Msg :=
  (received.filter (fun a => a.1 == k)).map Prod.snd

/-- The number of completion signals among the messages received. -/
def quitCount (received : List (Nat × Msg)) : Nat :=
  (received.filter (fun a => a.2 == Msg.quit)).length

/-- The items received, each with the goroutine it came from, in order of
arrival. -/
def taggedItems : List (Nat × Msg) → List (Nat × RssItem)
  | [] => []
  | (k, .item i) :: ms => (k, i) :: taggedItems ms
  | (_, .quit) :: ms => taggedItems ms

/-- The number of goroutines that have a send pending. -/
def active (pending : List (List Msg)) : Nat :=
  (pending.map (fun q => if q = [] then 0 else 1)).sum

/-- The number of sends pending in all goroutines. -/
def totalPending (pending : List (List Msg)) : Nat :=
  (pending.map List.length).sum

/-- A goroutine that sends finitely many items and then one completion
signal. -/
def ItemsThenQuit (q : List Msg) : Prop :=
  ∃ items : List RssItem, q = items.map Msg.item ++ [Msg.quit]

/-- The item `item` is the one `fetchItemsFromURL` builds from the entry
`entry` of a document with channel title `source` fetched from `url`. -/
def Emits (w : World) (source url : String) (entry : rssItem) (item : RssItem) : Prop :=
  item.Title = entry.Title ∧ item.Description = entry.Description ∧ item.Link = entry.Link
    ∧ utils.ParseDate w.Local entry.PublishDate = .ok item.PublishDate
    ∧ item.Source = source ∧ item.SourceURL = url

/-- The items a source contributes: those its goroutine sends. -/
def emitted (w : World) (url : String) : List RssItem :=
  itemsOf (fetchItemsFromURL w url)

/-- Whether `ParseDate` returns a time for the date string of an entry. -/
def dateOk (w : World) (entry : rssItem) : Bool :=
  match utils.ParseDate w.Local entry.PublishDate with
  | .ok _ => true
  | .error _ => false

/-- A source that contributes nothing: the retrieval fails, the status is
outside [200, 299], or the body does not decode. -/
def SoftFails (w : World) (url : String) : Prop :=
  (∃ e, w.httpGet url = .error e)
    ∨ (∃ r, w.httpGet url = .ok r ∧ (r.StatusCode < 200 ∨ 299 < r.StatusCode))
    ∨ (∃ r e, w.httpGet url = .ok r ∧ w.xmlUnmarshal r.Body = .error e)

/-! ## A small world for the examples -/

/-- The document of the repository's test "urls set contains one url". -/
def testFeed : rssFeed :=
  { Channel :=
    { Source := "Test feed"
      Items :=
        [ { Title := "Title string", Description := "Description string.",
            Link := "http://www.example.com/1", PublishDate := "Sun, 06 Sep 2009 16:20:00 +0000" },
          { Title := "Second Title", Description := "Second Description",
            Link := "http://www.example.com/2", PublishDate := "Sun, 06 Sep 2009 16:20:00 +0000" } ] } }

/-- A document whose second entry has a date that no format accepts. -/
def mixedFeed : rssFeed :=
  { Channel :=
    { Source := "Mixed feed"
      Items :=
        [ { Title := "First", Description := "d1", Link := "l1",
            PublishDate := "Sun, 06 Sep 2009 16:20:00 +0000" },
          { Title := "Undated", Description := "d2", Link := "l2", PublishDate := "not-a-date" },
          { Title := "Third", Description := "d3", Link := "l3",
            PublishDate := "Sun, 06 Sep 2009 16:20:00 +0000" } ] } }

/-- A world with four sources: `/feed.rss` serves `testFeed`, `/mixed.rss`
serves `mixedFeed`, `/forbidden` answers 403, `/broken.rss` serves a body that
does not decode; every other url is unreachable. -/
def testWorld : World :=
  { httpGet := fun url =>
      if url = "http://127.0.0.1/feed.rss" then .ok { StatusCode := 200, Body := toBytes "feed" }
      else if url = "http://127.0.0.1/mixed.rss" then
        .ok { StatusCode := 200, Body := toBytes "mixed" }
      else if url = "http://127.0.0.1/forbidden" then .ok { StatusCode := 403, Body := [] }
      else if url = "http://127.0.0.1/broken.rss" then
        .ok { StatusCode := 200, Body := toBytes "<rss>broken" }
      else .error "connection refused"
    xmlUnmarshal := fun body =>
      if body = toBytes "feed" then .ok testFeed
      else if body = toBytes "mixed" then .ok mixedFeed
      else .error "XML syntax error"
    Local := utils.utcLocal }

/-- An arrival order of the sends of the goroutines `tasks`: a sequence of
messages, each with the goroutine it comes from, in which the messages of
goroutine `j` are exactly its sends, in the order it performs them. -/
def ArrivalOrder (tasks : List (List Msg)) (arr : List (Nat × Msg)) : Prop :=
  (∀ a ∈ arr, a.1 < tasks.length) ∧ ∀ j, fromGoroutine j arr = tasks.getD j []

/-- The item built from the first entry of `testFeed`. -/
def testItem : RssItem :=
  { Title := "Title string"
    Source := "Test feed"
    SourceURL := "http://127.0.0.1/feed.rss"
    Link := "http://www.example.com/1"
    PublishDate := { unixSec := 1252254000, nsec := 0, loc := .UTC }
    Description := "Description string." }

/-- Two goroutines: one sends an item and its completion signal, the other its
completion signal only. -/
def testTasks : List (List Msg) :=
  [[Msg.item testItem, Msg.quit], [Msg.quit]]

/-- Two urls of the test world. -/
def testUrls : List String :=
  ["http://127.0.0.1/feed.rss", "http://127.0.0.1/mixed.rss"]

end rss_reader

/-! # Theorems -/

section DateLemmas

open time utils

/-- Every layout element found by `nextStdChunk` leaves a shorter layout. -/
theorem time.nextStdChunkFrom_shorter (pre layout : Bytes) :
    (nextStdChunkFrom pre layout).2.1 = .zero
      ∨ (nextStdChunkFrom pre layout).2.2.length < layout.length := by
  induction layout generalizing pre with
  | nil => exact Or.inl rfl
  | cons c cs ih =>
    unfold nextStdChunkFrom
    split
    · right
      simp only [List.length_drop, List.length_cons]
      omega
    · right
      rename_i std n hn _
      cases n with
      | zero => exact absurd rfl hn
      | succ n =>
        simp only [List.drop_succ_cons, List.length_drop, List.length_cons]
        omega
    · rcases ih (c :: pre) with h | h
      · exact Or.inl h
      · right
        simp only [List.length_cons]
        omega

/-- The bound on the rounds of the loop of `parse` is never reached: a layout
of `n` bytes is used up in at most `n + 1` rounds. -/
theorem time.parseLoop_ne_loopBound (fuel : Nat) :
    ∀ (layout value : Bytes) (f : Fields), layout.length < fuel →
      parseLoop fuel layout value f ≠ .error .loopBound := by
  induction fuel with
  | zero =>
    intro layout value f h
    omega
  | succ fuel ih =>
    intro layout value f h
    unfold parseLoop
    simp only
    split
    · simp
    · split
      · split <;> simp
      · rename_i hz
        split
        · simp
        · simp
        · apply ih
          rcases nextStdChunkFrom_shorter [] layout with h1 | h1
          · exact absurd h1 hz
          · unfold nextStdChunk
            omega

theorem time.parse_of_fields (Local : LocalZone) (layout value : Bytes) (f : Fields)
    (h : parseLoop (layout.length + 1) layout value {} = .ok f) :
    parse Local layout value = finish Local f := by
  simp [parse, h]

theorem time.parse_of_loop_error (Local : LocalZone) (layout value : Bytes) (e : ParseError)
    (h : parseLoop (layout.length + 1) layout value {} = .error e) :
    parse Local layout value = .error e := by
  simp [parse, h]

/-- After the loop, `parse` fails only on the day checks: whatever `Local`
answers, a time is returned when month and day are consistent. -/
theorem time.finish_ok (Local : LocalZone) (f : Fields) (m d : Int)
    (hmd : monthDay f = .ok (m, d)) (hd : (d < 1 || d > daysIn m f.year) = false) :
    finish Local f = .ok (locate Local f (Date f.year m d (clockHour f) f.min f.sec f.nsec)) := by
  unfold finish
  simp only [hmd, hd]
  rfl

theorem time.finish_day_error (Local : LocalZone) (f : Fields) (m d : Int)
    (hmd : monthDay f = .ok (m, d)) (hd : (d < 1 || d > daysIn m f.year) = true) :
    finish Local f = .error .dayOutOfRange := by
  unfold finish
  simp only [hmd, hd]
  rfl

theorem time.finish_monthDay_error (Local : LocalZone) (f : Fields) (e : ParseError)
    (hmd : monthDay f = .error e) : finish Local f = .error e := by
  unfold finish
  simp only [hmd]

/-- The instant of a time read with a numeric zone offset does not depend on
`Local`. -/
theorem time.locate_offset_unix (Local : LocalZone) (f : Fields) (t : Int × Int)
    (hz : f.z = false) (ho : f.zoneOffset ≠ -1) :
    (locate Local f t).unixSec = t.1 - f.zoneOffset ∧ (locate Local f t).nsec = t.2 := by
  unfold locate
  simp only [hz, ho]
  split_ifs <;> simp_all

theorem time.Parse_of_accepts (Local : LocalZone) (layout value : String)
    (h : accepts layout value = true) : ∃ t, Parse Local layout value = .ok t := by
  unfold accepts at h
  unfold Parse parse
  split at h
  · exact absurd h (by simp)
  · rename_i f hf
    split at h
    · exact absurd h (by simp)
    · rename_i m d hmd
      exact ⟨_, finish_ok Local f m d hmd (by simpa using h)⟩

theorem time.Parse_of_not_accepts (Local : LocalZone) (layout value : String)
    (h : accepts layout value = false) : ∃ e, Parse Local layout value = .error e := by
  unfold accepts at h
  unfold Parse parse
  split at h
  · rename_i e he
    exact ⟨e, rfl⟩
  · rename_i f hf
    split at h
    · rename_i e he
      exact ⟨e, finish_monthDay_error Local f e he⟩
    · rename_i m d hmd
      refine ⟨_, finish_day_error Local f m d hmd ?_⟩
      cases hb : (decide (d < 1) || decide (d > daysIn m f.year))
      · rw [hb] at h
        cases h
      · rfl

theorem time.Parse_ok_iff_accepts (Local : LocalZone) (layout value : String) :
    (∃ t, Parse Local layout value = .ok t) ↔ accepts layout value = true := by
  constructor
  · rintro ⟨t, ht⟩
    by_contra hne
    obtain ⟨e, he⟩ := Parse_of_not_accepts Local layout value (by simpa using hne)
    rw [he] at ht
    cases ht
  · exact Parse_of_accepts Local layout value

theorem utils.ParseDateFrom_of_firstAccepted (Local : LocalZone) (s : String)
    (fs : List String) (format : String) (h : firstAccepted s fs = some format) :
    ∃ t, Parse Local format s = .ok t ∧ ParseDateFrom Local s fs = .ok t := by
  induction fs with
  | nil => simp [firstAccepted] at h
  | cons g rest ih =>
    unfold firstAccepted at h
    unfold ParseDateFrom
    by_cases hg : accepts g s = true
    · obtain ⟨t, ht⟩ := Parse_of_accepts Local g s hg
      simp only [hg, if_true, Option.some.injEq] at h
      subst h
      exact ⟨t, ht, by simp [ht]⟩
    · obtain ⟨e, he⟩ := Parse_of_not_accepts Local g s (by simpa using hg)
      simp only [hg] at h
      obtain ⟨t, ht1, ht2⟩ := ih h
      exact ⟨t, ht1, by simp [he, ht2]⟩

theorem utils.ParseDateFrom_of_none_accepted (Local : LocalZone) (s : String)
    (fs : List String) (h : firstAccepted s fs = none) :
    ParseDateFrom Local s fs = .error ("Unknown date format: " ++ s) := by
  induction fs with
  | nil => rfl
  | cons g rest ih =>
    unfold firstAccepted at h
    unfold ParseDateFrom
    by_cases hg : accepts g s = true
    · simp [hg] at h
    · obtain ⟨e, he⟩ := Parse_of_not_accepts Local g s (by simpa using hg)
      simp only [hg] at h
      simp [he, ih h]

theorem utils.ParseDateFrom_first (Local : LocalZone) (s : String) (pre post : List String)
    (format : String) (t : Time)
    (hpre : ∀ g ∈ pre, ∀ u, Parse Local g s ≠ .ok u) (hf : Parse Local format s = .ok t) :
    ParseDateFrom Local s (pre ++ format :: post) = .ok t := by
  induction pre with
  | nil => simp [ParseDateFrom, hf]
  | cons g rest ih =>
    have hg : ∀ u, Parse Local g s ≠ .ok u := hpre g (by simp)
    have ih1 := ih (fun g1 hg1 => hpre g1 (by simp [hg1]))
    simp only [List.cons_append, ParseDateFrom]
    cases hp : Parse Local g s with
    | ok u => exact absurd hp (hg u)
    | error e => simpa using ih1

theorem utils.ParseDateFrom_error_iff (Local : LocalZone) (s : String) (fs : List String) :
    (∃ e, ParseDateFrom Local s fs = .error e) ↔ ∀ g ∈ fs, ∀ u, Parse Local g s ≠ .ok u := by
  induction fs with
  | nil => simp [ParseDateFrom]
  | cons g rest ih =>
    simp only [ParseDateFrom, List.mem_cons, forall_eq_or_imp]
    cases hp : Parse Local g s with
    | ok u =>
      simp only [reduceCtorEq, exists_false, false_iff, not_and]
      intro h
      exact absurd rfl (h u)
    | error e =>
      simp only [ih]
      constructor
      · intro h
        exact ⟨fun u => by simp, h⟩
      · intro h
        exact h.2

theorem utils.ParseDateFrom_error_msg (Local : LocalZone) (s : String) (fs : List String)
    (e : String) (h : ParseDateFrom Local s fs = .error e) : e = "Unknown date format: " ++ s := by
  induction fs with
  | nil =>
    simp only [ParseDateFrom, Except.error.injEq] at h
    exact h.symm
  | cons g rest ih =>
    simp only [ParseDateFrom] at h
    cases hp : Parse Local g s with
    | ok u => simp [hp] at h
    | error e1 =>
      rw [hp] at h
      exact ih h

/-- A time read without any zone is in `UTC`, whatever `Local` is. -/
theorem time.locate_no_zone (Local : LocalZone) (f : Fields) (t : Int × Int)
    (hz : f.z = false) (ho : f.zoneOffset = -1) (hn : f.zoneName = []) :
    locate Local f t = { unixSec := t.1, nsec := t.2, loc := .UTC } := by
  unfold locate
  simp [hz, ho, hn]

/-- `time.Parse` on a value with a numeric zone offset: the instant returned
is the date read, moved by the offset, whatever `Local` is. -/
theorem time.Parse_offset_unix (Local : LocalZone) (layout value : String) (f : Fields)
    (m d : Int)
    (hfields : parseLoop ((toBytes layout).length + 1) (toBytes layout) (toBytes value) {}
      = .ok f)
    (hmd : monthDay f = .ok (m, d)) (hd : (d < 1 || d > daysIn m f.year) = false)
    (hz : f.z = false) (ho : f.zoneOffset ≠ -1) :
    ∃ t, Parse Local layout value = .ok t
      ∧ t.unixSec = (Date f.year m d (clockHour f) f.min f.sec f.nsec).1 - f.zoneOffset
      ∧ t.nsec = (Date f.year m d (clockHour f) f.min f.sec f.nsec).2 := by
  have hloc := locate_offset_unix Local f (Date f.year m d (clockHour f) f.min f.sec f.nsec) hz ho
  refine ⟨_, ?_, hloc.1, hloc.2⟩
  unfold Parse
  rw [parse_of_fields Local _ _ _ hfields]
  exact finish_ok Local f m d hmd hd

/-- `time.Parse` on a value without any zone: the date read, in `UTC`. -/
theorem time.Parse_no_zone (Local : LocalZone) (layout value : String) (f : Fields)
    (m d : Int)
    (hfields : parseLoop ((toBytes layout).length + 1) (toBytes layout) (toBytes value) {}
      = .ok f)
    (hmd : monthDay f = .ok (m, d)) (hd : (d < 1 || d > daysIn m f.year) = false)
    (hz : f.z = false) (ho : f.zoneOffset = -1) (hn : f.zoneName = []) :
    Parse Local layout value
      = .ok { unixSec := (Date f.year m d (clockHour f) f.min f.sec f.nsec).1
              nsec := (Date f.year m d (clockHour f) f.min f.sec f.nsec).2
              loc := .UTC } := by
  unfold Parse
  rw [parse_of_fields Local _ _ _ hfields, finish_ok Local f m d hmd hd,
    locate_no_zone Local f _ hz ho hn]

end DateLemmas

/-- C8. For every string `s`, `ParseDate(s)` tries the formats of `dateFormats`
in their declared order: when a format accepts `s` and no format before it in
the table does, `ParseDate(s)` returns the time of that format with a nil
error; it returns an error exactly when no format of the table accepts `s`;
and that error is "Unknown date format: " followed by `s`.  The table has the
twelve declared formats in the declared order. -/
theorem ParseDate_first_matching_format (Local : time.LocalZone) (s : String) :
    (∀ (pre post : List String) (format : String) (t : time.Time),
        utils.dateFormats = pre ++ format :: post →
        (∀ g ∈ pre, ∀ u, time.Parse Local g s ≠ .ok u) →
        time.Parse Local format s = .ok t →
        utils.ParseDate Local s = .ok t)
    ∧ ((∃ e, utils.ParseDate Local s = .error e) ↔
        ∀ g ∈ utils.dateFormats, ∀ u, time.Parse Local g s ≠ .ok u)
    ∧ (∀ e, utils.ParseDate Local s = .error e → e = "Unknown date format: " ++ s)
    ∧ utils.dateFormats =
        [ time.RFC822, time.RFC822Z, time.RFC3339, time.UnixDate, time.RubyDate, time.RFC850,
          time.RFC1123Z, time.RFC1123, time.ANSIC, "Mon, January 2 2006 15:04:05 -0700",
          "Mon, Jan 2 2006 15:04:05 -700", "Mon, Jan 2 2006 15:04:05 -0700" ] := by
  refine ⟨?_, ?_, ?_, rfl⟩
  · intro pre post format t hdf hpre hf
    unfold utils.ParseDate
    rw [hdf]
    exact utils.ParseDateFrom_first Local s pre post format t hpre hf
  · exact utils.ParseDateFrom_error_iff Local s utils.dateFormats
  · intro e he
    exact utils.ParseDateFrom_error_msg Local s utils.dateFormats e he

/-- C9. `ParseDate("Sun, 06 Sep 2009 16:20:00 +0000")` returns a time and a
nil error, whatever the local time zone; the time is the one that
`time.Parse(time.RFC1123Z, ...)` returns for the string, and its instant is
2009-09-06T16:20:00Z (1252254000 seconds after the Unix epoch, no
nanoseconds).  None of the six formats declared before `RFC1123Z` accepts the
string. -/
theorem ParseDate_test_feed_pubDate (Local : time.LocalZone) :
    ∃ t, utils.ParseDate Local "Sun, 06 Sep 2009 16:20:00 +0000" = .ok t
      ∧ time.Parse Local time.RFC1123Z "Sun, 06 Sep 2009 16:20:00 +0000" = .ok t
      ∧ (t.unixSec, t.nsec) = time.Date 2009 9 6 16 20 0 0
      ∧ t.unixSec = 1252254000 ∧ t.nsec = 0
      ∧ utils.dateFormats.take 7 =
          [time.RFC822, time.RFC822Z, time.RFC3339, time.UnixDate, time.RubyDate, time.RFC850,
            time.RFC1123Z]
      ∧ ∀ g ∈ [time.RFC822, time.RFC822Z, time.RFC3339, time.UnixDate, time.RubyDate,
            time.RFC850],
          ∀ u, time.Parse Local g "Sun, 06 Sep 2009 16:20:00 +0000" ≠ .ok u := by
  have hfirst : utils.firstAccepted "Sun, 06 Sep 2009 16:20:00 +0000" utils.dateFormats
      = some time.RFC1123Z := by decide
  obtain ⟨t, ht1, ht2⟩ := utils.ParseDateFrom_of_firstAccepted Local _ _ _ hfirst
  have hfields : time.parseLoop ((toBytes time.RFC1123Z).length + 1) (toBytes time.RFC1123Z)
      (toBytes "Sun, 06 Sep 2009 16:20:00 +0000") {}
      = .ok { year := 2009, month := 9, day := 6, hour := 16, min := 20, zoneOffset := 0 } := by
    decide
  obtain ⟨t1, ht3, hu1, hn1⟩ :=
    time.Parse_offset_unix Local _ _ _ 9 6 hfields (by decide) (by decide) rfl (by decide)
  have htt : t1 = t := by
    rw [ht1] at ht3
    exact (Except.ok.inj ht3).symm
  subst htt
  have hu : t1.unixSec = 1252254000 := by
    rw [hu1]
    decide
  have hn : t1.nsec = 0 := by
    rw [hn1]
    decide
  have hdate : time.Date 2009 9 6 16 20 0 0 = (1252254000, 0) := by decide
  refine ⟨t1, ht2, ht1, ?_, hu, hn, rfl, ?_⟩
  · rw [hdate, hu, hn]
  · intro g hg u hgu
    have hacc : time.accepts g "Sun, 06 Sep 2009 16:20:00 +0000" = false := by
      simp only [List.mem_cons, List.mem_singleton, List.not_mem_nil, or_false] at hg
      rcases hg with h | h | h | h | h | h <;> subst h <;> decide
    obtain ⟨e, he⟩ := time.Parse_of_not_accepts Local g _ hacc
    rw [he] at hgu
    cases hgu

/-- What does hold of the table: `dateFormats` declares twelve formats, and
`formatExamples` pairs each of them, in the order of the table, with a date
that `time.Parse` accepts with that format and for which `ParseDate` returns
the same time with a nil error, whatever the local time zone; `ParseDate`
fails on "not-a-date".  The example of the eleventh format is the layout text
itself, the only ending that format accepts. -/
theorem ParseDate_accepts_every_declared_format (Local : time.LocalZone) :
    utils.dateFormats.length = 12
      ∧ utils.formatExamples.map Prod.fst = utils.dateFormats
      ∧ (∀ p ∈ utils.formatExamples,
          ∃ t, time.Parse Local p.1 p.2 = .ok t ∧ utils.ParseDate Local p.2 = .ok t)
      ∧ utils.ParseDate Local "not-a-date" = .error "Unknown date format: not-a-date" := by
  refine ⟨rfl, rfl, ?_, ?_⟩
  · intro p hp
    have hfirst : utils.firstAccepted p.2 utils.dateFormats = some p.1 := by
      simp only [utils.formatExamples, List.mem_cons, List.mem_singleton, List.not_mem_nil,
        or_false] at hp
      rcases hp with h | h | h | h | h | h | h | h | h | h | h | h <;> subst h <;> decide
    exact utils.ParseDateFrom_of_firstAccepted Local p.2 utils.dateFormats p.1 hfirst
  · exact utils.ParseDateFrom_of_none_accepted Local "not-a-date" utils.dateFormats (by decide)

/-- C10, a defect of the code.  The eleventh entry of `dateFormats`,
"Mon, Jan 2 2006 15:04:05 -700", stands where a variant with abbreviated month
name and a short numeric UTC offset is meant, next to the twelfth entry with
"-0700".  But "-700" is no layout element of `time.Parse` (the numeric zone
elements all start "-07" or "Z07"): `nextStdChunk` returns it as literal text.
So `ParseDate` rejects a date of that form with a 2-digit offset ("-07",
"+07") and with another 3-digit offset ("-800"); and of the one ending it
accepts, "-700", it reads no offset: 15:04:05 is returned as UTC, where the
twelfth entry reads "-0700" as seven hours west (22:04:05 UTC). -/
theorem ParseDate_short_offset_format_is_literal (Local : time.LocalZone) :
    utils.dateFormats.get? 10 = some "Mon, Jan 2 2006 15:04:05 -700"
      ∧ time.nextStdChunk (toBytes " -700") = (toBytes " -700", .zero, [])
      ∧ utils.ParseDate Local "Mon, Jan 2 2006 15:04:05 -07"
          = .error "Unknown date format: Mon, Jan 2 2006 15:04:05 -07"
      ∧ utils.ParseDate Local "Mon, Jan 2 2006 15:04:05 +07"
          = .error "Unknown date format: Mon, Jan 2 2006 15:04:05 +07"
      ∧ utils.ParseDate Local "Mon, Jan 2 2006 15:04:05 -800"
          = .error "Unknown date format: Mon, Jan 2 2006 15:04:05 -800"
      ∧ utils.ParseDate Local "Mon, Jan 2 2006 15:04:05 -700"
          = .ok { unixSec := 1136214245, nsec := 0, loc := .UTC }
      ∧ (time.Date 2006 1 2 15 4 5 0).1 = 1136214245
      ∧ (∃ t, utils.ParseDate Local "Mon, Jan 2 2006 15:04:05 -0700" = .ok t
          ∧ t.unixSec = 1136214245 + 7 * 3600) := by
  refine ⟨rfl, by decide, ?_, ?_, ?_, ?_, by decide, ?_⟩
  · exact utils.ParseDateFrom_of_none_accepted Local _ utils.dateFormats (by decide)
  · exact utils.ParseDateFrom_of_none_accepted Local _ utils.dateFormats (by decide)
  · exact utils.ParseDateFrom_of_none_accepted Local _ utils.dateFormats (by decide)
  · have hfirst : utils.firstAccepted "Mon, Jan 2 2006 15:04:05 -700" utils.dateFormats
        = some "Mon, Jan 2 2006 15:04:05 -700" := by decide
    obtain ⟨t, ht1, ht2⟩ := utils.ParseDateFrom_of_firstAccepted Local _ _ _ hfirst
    have hfields : time.parseLoop ((toBytes "Mon, Jan 2 2006 15:04:05 -700").length + 1)
        (toBytes "Mon, Jan 2 2006 15:04:05 -700") (toBytes "Mon, Jan 2 2006 15:04:05 -700") {}
        = .ok { year := 2006, month := 1, day := 2, hour := 15, min := 4, sec := 5 } := by
      decide
    rw [time.Parse_no_zone Local _ _ _ 1 2 hfields (by decide) (by decide) rfl rfl rfl] at ht1
    have ht : t = { unixSec := 1136214245, nsec := 0, loc := .UTC } := by
      rw [← Except.ok.inj ht1]
      decide
    rw [← ht]
    exact ht2
  · have hfirst : utils.firstAccepted "Mon, Jan 2 2006 15:04:05 -0700" utils.dateFormats
        = some "Mon, Jan 2 2006 15:04:05 -0700" := by decide
    obtain ⟨t, ht1, ht2⟩ := utils.ParseDateFrom_of_firstAccepted Local _ _ _ hfirst
    have hfields : time.parseLoop ((toBytes "Mon, Jan 2 2006 15:04:05 -0700").length + 1)
        (toBytes "Mon, Jan 2 2006 15:04:05 -0700") (toBytes "Mon, Jan 2 2006 15:04:05 -0700") {}
        = .ok { year := 2006, month := 1, day := 2, hour := 15, min := 4, sec := 5,
                zoneOffset := -25200 } := by
      decide
    obtain ⟨t1, ht3, hu, _⟩ :=
      time.Parse_offset_unix Local _ _ _ 1 2 hfields (by decide) (by decide) rfl (by decide)
    have htt : t1 = t := by
      rw [ht1] at ht3
      exact (Except.ok.inj ht3).symm
    subst htt
    refine ⟨t1, ht2, ?_⟩
    rw [hu]
    decide

/-- The range test of `parse` on a numeric zone offset, seen from `ParseDate`:
an offset of 25 hours or of 61 minutes is rejected by every format, an offset
of 24 hours and 60 minutes passes. -/
theorem ParseDate_offset_range (Local : time.LocalZone) :
    utils.ParseDate Local "Sun, 06 Sep 2009 16:20:00 +2500"
        = .error "Unknown date format: Sun, 06 Sep 2009 16:20:00 +2500"
      ∧ utils.ParseDate Local "2009-09-06T16:20:00+00:61"
        = .error "Unknown date format: 2009-09-06T16:20:00+00:61"
      ∧ time.accepts time.RFC1123Z "Sun, 06 Sep 2009 16:20:00 +2460" = true := by
  refine ⟨?_, ?_, by decide⟩
  · exact utils.ParseDateFrom_of_none_accepted Local _ utils.dateFormats (by decide)
  · exact utils.ParseDateFrom_of_none_accepted Local _ utils.dateFormats (by decide)

section ParseLemmas

open rss_reader

theorem rss_reader.sum_map_set {α : Type} (f : α → Nat) (l : List α) (k : Nat) (x : α)
    (hk : k < l.length) :
    ((l.set k x).map f).sum + f (l.get ⟨k, hk⟩) = (l.map f).sum + f x := by
  induction l generalizing k with
  | nil => simp at hk
  | cons a l ih =>
    cases k with
    | zero => simp [List.set]; omega
    | succ k =>
      simp only [List.length_cons, Nat.add_lt_add_iff_right] at hk
      have := ih k hk
      simp only [List.set, List.map_cons, List.sum_cons, List.get_cons_succ] at this ⊢
      omega

theorem rss_reader.itemsOf_append (a b : List Msg) : itemsOf (a ++ b) = itemsOf a ++ itemsOf b := by
  induction a with
  | nil => rfl
  | cons m ms ih => cases m <;> simp [itemsOf, ih]

theorem rss_reader.itemsOf_map_item (is : List RssItem) : itemsOf (is.map Msg.item) = is := by
  induction is with
  | nil => rfl
  | cons i is ih => simp [itemsOf, ih]

theorem rss_reader.firstReady_some (k : Nat) (pending : List (List Msg)) (j : Nat) (m : Msg)
    (rest : List Msg) (h : firstReady k pending = some (j, m, rest)) :
    k ≤ j ∧ j - k < pending.length ∧ pending.getD (j - k) [] = m :: rest := by
  induction pending generalizing k with
  | nil => simp [firstReady] at h
  | cons q qs ih =>
    cases q with
    | nil =>
      simp only [firstReady] at h
      obtain ⟨h1, h2, h3⟩ := ih (k + 1) h
      have : j - k = (j - (k + 1)) + 1 := by omega
      refine ⟨by omega, ?_, ?_⟩
      · simp only [List.length_cons]; omega
      · rw [this]; simpa using h3
    | cons m1 r1 =>
      simp only [firstReady, Option.some.injEq, Prod.mk.injEq] at h
      obtain ⟨h1, h2, h3⟩ := h
      subst h1 h2 h3
      simp

theorem rss_reader.firstReady_none (k : Nat) (pending : List (List Msg))
    (h : firstReady k pending = none) : ∀ q ∈ pending, q = [] := by
  induction pending generalizing k with
  | nil => simp
  | cons q qs ih =>
    cases q with
    | nil =>
      simp only [firstReady] at h
      intro q hq
      simp only [List.mem_cons] at hq
      rcases hq with hq | hq
      · exact hq
      · exact ih (k + 1) h q hq
    | cons m1 r1 => simp [firstReady] at h

theorem rss_reader.nextSend_some (choice : Nat) (pending : List (List Msg)) (j : Nat) (m : Msg)
    (rest : List Msg) (h : nextSend choice pending = some (j, m, rest)) :
    j < pending.length ∧ pending.getD j [] = m :: rest := by
  unfold nextSend at h
  split at h
  · rename_i m1 r1 hq
    simp only [Option.some.injEq, Prod.mk.injEq] at h
    obtain ⟨h1, h2, h3⟩ := h
    subst h1 h2 h3
    refine ⟨?_, hq⟩
    by_contra hlt
    rw [List.getD_eq_default _ _ (by omega)] at hq
    cases hq
  · have := firstReady_some 0 pending j m rest h
    simpa using this.2

theorem rss_reader.nextSend_none (choice : Nat) (pending : List (List Msg))
    (h : nextSend choice pending = none) : ∀ q ∈ pending, q = [] := by
  unfold nextSend at h
  split at h
  · cases h
  · exact firstReady_none 0 pending h

theorem rss_reader.active_eq_zero (pending : List (List Msg)) (h : ∀ q ∈ pending, q = []) :
    active pending = 0 := by
  induction pending with
  | nil => rfl
  | cons q qs ih =>
    have hq : q = [] := h q (by simp)
    have := ih (fun q1 hq1 => h q1 (by simp [hq1]))
    simp only [active, List.map_cons, List.sum_cons] at this ⊢
    simp [hq, this]

theorem rss_reader.all_empty_of_active (pending : List (List Msg)) (h : active pending = 0) :
    ∀ q ∈ pending, q = [] := by
  induction pending with
  | nil => simp
  | cons q qs ih =>
    simp only [active, List.map_cons, List.sum_cons] at h
    intro q1 hq1
    simp only [List.mem_cons] at hq1
    rcases hq1 with hq1 | hq1
    · subst hq1
      by_contra hne
      simp [hne] at h
    · exact ih (by simp only [active]; omega) q1 hq1

theorem rss_reader.totalPending_eq_zero (pending : List (List Msg))
    (h : ∀ q ∈ pending, q = []) : totalPending pending = 0 := by
  induction pending with
  | nil => rfl
  | cons q qs ih =>
    have hq : q = [] := h q (by simp)
    have := ih (fun q1 hq1 => h q1 (by simp [hq1]))
    simp only [totalPending, List.map_cons, List.sum_cons] at this ⊢
    simp [hq, this]

theorem rss_reader.getD_eq_get (pending : List (List Msg)) (k : Nat) (hk : k < pending.length) :
    pending.getD k [] = pending.get ⟨k, hk⟩ := by
  simp [List.getD_eq_getElem?_getD, List.getElem?_eq_getElem hk]

theorem rss_reader.getD_set_self (pending : List (List Msg)) (k : Nat) (x : List Msg)
    (hk : k < pending.length) : (pending.set k x).getD k [] = x := by
  simp [List.getD_eq_getElem?_getD, hk]

theorem rss_reader.getD_set_other (pending : List (List Msg)) (k j : Nat) (x : List Msg)
    (hjk : k ≠ j) : (pending.set k x).getD j [] = pending.getD j [] := by
  simp [List.getD_eq_getElem?_getD, List.getElem?_set_ne hjk]

theorem rss_reader.step_active (pending : List (List Msg)) (k : Nat) (m : Msg)
    (rest : List Msg) (hk : k < pending.length) (hq : pending.getD k [] = m :: rest) :
    active (pending.set k rest) + 1 = active pending + (if rest = [] then 0 else 1) := by
  have h := sum_map_set (fun q : List Msg => if q = [] then 0 else 1) pending k rest hk
  rw [← getD_eq_get pending k hk, hq] at h
  simp only [reduceCtorEq, if_false] at h
  unfold active
  omega

theorem rss_reader.step_total (pending : List (List Msg)) (k : Nat) (m : Msg)
    (rest : List Msg) (hk : k < pending.length) (hq : pending.getD k [] = m :: rest) :
    totalPending (pending.set k rest) + 1 = totalPending pending := by
  have h := sum_map_set List.length pending k rest hk
  rw [← getD_eq_get pending k hk, hq] at h
  simp only [List.length_cons] at h
  unfold totalPending
  omega

theorem rss_reader.tail_of_item (i : RssItem) (rest : List Msg)
    (h : ItemsThenQuit (Msg.item i :: rest)) : ItemsThenQuit rest ∧ rest ≠ [] := by
  obtain ⟨is, his⟩ := h
  cases is with
  | nil => simp at his
  | cons i1 is1 =>
    simp only [List.map_cons, List.cons_append, List.cons.injEq, Msg.item.injEq] at his
    refine ⟨⟨is1, his.2⟩, ?_⟩
    rw [his.2]
    simp

theorem rss_reader.tail_of_quit (rest : List Msg) (h : ItemsThenQuit (Msg.quit :: rest)) :
    rest = [] := by
  obtain ⟨is, his⟩ := h
  cases is with
  | nil =>
    simp only [List.map_nil, List.nil_append, List.cons.injEq, true_and] at his
    exact his
  | cons i1 is1 => simp at his

theorem rss_reader.head_pending_shape (pending : List (List Msg)) (k : Nat) (m : Msg)
    (rest : List Msg) (hk : k < pending.length) (hq : pending.getD k [] = m :: rest)
    (hinv : ∀ q ∈ pending, q = [] ∨ ItemsThenQuit q) : ItemsThenQuit (m :: rest) := by
  have hmem : pending.get ⟨k, hk⟩ ∈ pending := List.get_mem pending k hk
  rw [← getD_eq_get pending k hk, hq] at hmem
  rcases hinv _ hmem with h | h
  · cases h
  · exact h

theorem rss_reader.inv_set (pending : List (List Msg)) (k : Nat) (rest : List Msg)
    (hrest : rest = [] ∨ ItemsThenQuit rest)
    (hinv : ∀ q ∈ pending, q = [] ∨ ItemsThenQuit q) :
    ∀ q ∈ pending.set k rest, q = [] ∨ ItemsThenQuit q := by
  intro q hq
  rcases List.mem_or_eq_of_mem_set hq with h | h
  · exact hinv q h
  · rw [h]
    exact hrest

theorem rss_reader.fromGoroutine_cons (j k : Nat) (m : Msg) (new : List (Nat × Msg)) :
    fromGoroutine j ((k, m) :: new)
      = if k = j then m :: fromGoroutine j new else fromGoroutine j new := by
  unfold fromGoroutine
  by_cases h : k = j
  · simp [List.filter_cons, h]
  · simp [List.filter_cons, h]

theorem rss_reader.quitCount_cons (k : Nat) (m : Msg) (new : List (Nat × Msg)) :
    quitCount ((k, m) :: new) = (if m = Msg.quit then 1 else 0) + quitCount new := by
  unfold quitCount
  by_cases h : m = Msg.quit
  · simp only [List.filter_cons, h, beq_self_eq_true, if_true, List.length_cons]
    omega
  · simp [List.filter_cons, h]

theorem rss_reader.active_pos_of_get (pending : List (List Msg)) (k : Nat) (m : Msg)
    (rest : List Msg) (hk : k < pending.length) (hq : pending.getD k [] = m :: rest) :
    0 < active pending := by
  by_contra h
  have h0 : active pending = 0 := by omega
  have hmem : pending.get ⟨k, hk⟩ ∈ pending := List.get_mem pending k hk
  rw [← getD_eq_get pending k hk, hq] at hmem
  have := all_empty_of_active pending h0 _ hmem
  cases this

/-- The collecting loop, from any state it can be in: when every goroutine
has either finished or still has items and then one completion signal to send,
`workersDoneCount` counts the finished ones and the fuel covers the pending
sends, the loop leaves, having received exactly the pending sends. -/
theorem rss_reader.collect_returns (N : Nat) :
    ∀ (fuel : Nat) (sched : List Nat) (pending : List (List Msg)) (items : List RssItem)
      (done : Nat) (received : List (Nat × Msg)),
      (∀ q ∈ pending, q = [] ∨ ItemsThenQuit q) →
      done + active pending = N → 0 < active pending → totalPending pending ≤ fuel →
      ∃ c new, collect N fuel sched pending items done received = some c
        ∧ c.received = received ++ new
        ∧ c.items = items ++ itemsOf (new.map Prod.snd)
        ∧ (∀ q ∈ c.pending, q = [])
        ∧ c.pending.length = pending.length
        ∧ (∀ j, fromGoroutine j new = pending.getD j [])
        ∧ (∀ a ∈ new, a.1 < pending.length)
        ∧ new.length = totalPending pending
        ∧ quitCount new = active pending
        ∧ (∃ k, new.getLast? = some (k, Msg.quit)) := by
  intro fuel
  induction fuel with
  | zero =>
    intro sched pending items done received hinv hdone hact hfuel
    have h0 : totalPending pending = 0 := by omega
    exfalso
    have hall : ∀ q ∈ pending, q = [] := by
      intro q hq
      have hle : q.length ≤ totalPending pending := by
        unfold totalPending
        exact List.single_le_sum (by simp) _ (List.mem_map_of_mem _ hq)
      exact List.length_eq_zero.mp (by omega)
    have := active_eq_zero pending hall
    omega
  | succ fuel ih =>
    intro sched pending items done received hinv hdone hact hfuel
    unfold collect
    cases hns : nextSend (sched.headD 0) pending with
    | none =>
      have := active_eq_zero pending (nextSend_none _ _ hns)
      omega
    | some x =>
      obtain ⟨k, m, rest⟩ := x
      obtain ⟨hk, hq⟩ := nextSend_some _ _ _ _ _ hns
      have hshape := head_pending_shape pending k m rest hk hq hinv
      have hact1 := step_active pending k m rest hk hq
      have htot1 := step_total pending k m rest hk hq
      cases m with
      | item i =>
        obtain ⟨hrest, hne⟩ := tail_of_item i rest hshape
        simp only [hne, if_false] at hact1
        have hdne : ¬ done = N := by omega
        simp only [hdne, if_false]
        obtain ⟨c, new, hc, h1, h2, h3, h4, h5, h6, h7, h8, h9⟩ :=
          ih sched.tail (pending.set k rest) (items ++ [i]) done (received ++ [(k, Msg.item i)])
            (inv_set pending k rest (Or.inr hrest) hinv) (by omega) (by omega) (by omega)
        refine ⟨c, (k, Msg.item i) :: new, hc, ?_, ?_, h3, ?_, ?_, ?_, ?_, ?_, ?_⟩
        · rw [h1]; simp
        · rw [h2]; simp [itemsOf]
        · rw [h4]; simp
        · intro j
          rw [fromGoroutine_cons]
          by_cases hkj : k = j
          · subst hkj
            rw [if_pos rfl, h5 k, getD_set_self pending k rest hk, hq]
          · rw [if_neg hkj, h5 j, getD_set_other pending k j rest hkj]
        · intro a ha
          simp only [List.mem_cons] at ha
          rcases ha with ha | ha
          · rw [ha]; exact hk
          · have := h6 a ha
            simpa using this
        · simp only [List.length_cons]; omega
        · rw [quitCount_cons]
          simp only [reduceCtorEq, if_false]
          omega
        · obtain ⟨k1, hk1⟩ := h9
          refine ⟨k1, ?_⟩
          cases new with
          | nil => simp at hk1
          | cons a as => simpa [List.getLast?_cons_cons] using hk1
      | quit =>
        have hrest := tail_of_quit rest hshape
        subst hrest
        simp only [if_true] at hact1
        by_cases hret : done + 1 = N
        · simp only [hret, if_true]
          have hall : ∀ q ∈ pending.set k [], q = [] :=
            all_empty_of_active _ (by omega)
          refine ⟨_, [(k, Msg.quit)], rfl, rfl, by simp [itemsOf], hall, by simp, ?_, ?_, ?_,
            ?_, ⟨k, rfl⟩⟩
          · intro j
            rw [fromGoroutine_cons]
            by_cases hkj : k = j
            · subst hkj
              rw [if_pos rfl, hq]
              rfl
            · rw [if_neg hkj, ← getD_set_other pending k j [] hkj]
              by_cases hj : j < (pending.set k []).length
              · rw [getD_eq_get _ j hj]
                exact (hall _ (List.get_mem _ j hj)).symm
              · rw [List.getD_eq_default _ _ (by omega)]
                rfl
          · intro a ha
            simp only [List.mem_singleton] at ha
            rw [ha]; exact hk
          · have := totalPending_eq_zero _ hall
            simp only [List.length_singleton]
            omega
          · rw [quitCount_cons]
            simp only [if_true]
            have : quitCount [] = 0 := rfl
            omega
        · simp only [hret, if_false]
          obtain ⟨c, new, hc, h1, h2, h3, h4, h5, h6, h7, h8, h9⟩ :=
            ih sched.tail (pending.set k []) items (done + 1) (received ++ [(k, Msg.quit)])
              (inv_set pending k [] (Or.inl rfl) hinv) (by omega) (by omega) (by omega)
          refine ⟨c, (k, Msg.quit) :: new, hc, ?_, ?_, h3, ?_, ?_, ?_, ?_, ?_, ?_⟩
          · rw [h1]; simp
          · rw [h2]; simp [itemsOf]
          · rw [h4]; simp
          · intro j
            rw [fromGoroutine_cons]
            by_cases hkj : k = j
            · subst hkj
              rw [if_pos rfl, h5 k, getD_set_self pending k [] hk, hq]
            · rw [if_neg hkj, h5 j, getD_set_other pending k j [] hkj]
          · intro a ha
            simp only [List.mem_cons] at ha
            rcases ha with ha | ha
            · rw [ha]; exact hk
            · have := h6 a ha
              simpa using this
          · simp only [List.length_cons]; omega
          · rw [quitCount_cons]
            simp only [if_true]
            omega
          · obtain ⟨k1, hk1⟩ := h9
            refine ⟨k1, ?_⟩
            cases new with
            | nil => simp at hk1
            | cons a as => simpa [List.getLast?_cons_cons] using hk1

theorem rss_reader.sendItems_spec (w : World) (source url : String) (entries : List rssItem) :
    ∃ items : List RssItem, sendItems w source url entries = items.map Msg.item
      ∧ List.Forall₂ (Emits w source url) (entries.takeWhile (dateOk w)) items := by
  induction entries with
  | nil => exact ⟨[], rfl, by simp⟩
  | cons e rest ih =>
    obtain ⟨items, h1, h2⟩ := ih
    unfold sendItems
    cases hd : utils.ParseDate w.Local e.PublishDate with
    | error msg =>
      refine ⟨[], rfl, ?_⟩
      have : dateOk w e = false := by simp [dateOk, hd]
      simp [List.takeWhile_cons, this]
    | ok date =>
      refine ⟨{ Title := e.Title, Description := e.Description, Link := e.Link,
                PublishDate := date, Source := source, SourceURL := url } :: items,
              by simp [h1], ?_⟩
      have : dateOk w e = true := by simp [dateOk, hd]
      simp only [List.takeWhile_cons, this, if_true]
      exact List.Forall₂.cons ⟨rfl, rfl, rfl, hd, rfl, rfl⟩ h2

theorem rss_reader.fetchBody_items (w : World) (url : String) :
    ∃ items : List RssItem, fetchBody w url = items.map Msg.item := by
  unfold fetchBody
  split
  · exact ⟨[], rfl⟩
  · split
    · exact ⟨[], rfl⟩
    · split
      · exact ⟨[], rfl⟩
      · rename_i feed _
        obtain ⟨items, h, _⟩ := sendItems_spec w feed.Channel.Source url feed.Channel.Items
        exact ⟨items, h⟩

theorem rss_reader.fetch_itemsThenQuit (w : World) (url : String) :
    ItemsThenQuit (fetchItemsFromURL w url) := by
  obtain ⟨items, h⟩ := fetchBody_items w url
  exact ⟨items, by rw [fetchItemsFromURL, h]⟩

theorem rss_reader.fetchBody_accepted (w : World) (url : String) (r : Response) (feed : rssFeed)
    (hget : w.httpGet url = .ok r) (hstatus : 200 ≤ r.StatusCode ∧ r.StatusCode ≤ 299)
    (hxml : w.xmlUnmarshal r.Body = .ok feed) :
    fetchBody w url = sendItems w feed.Channel.Source url feed.Channel.Items := by
  unfold fetchBody
  rw [hget]
  have h1 : ¬ r.StatusCode > 299 := by omega
  have h2 : ¬ r.StatusCode < 200 := by omega
  simp [h1, h2, hxml]

theorem rss_reader.fetchBody_softFails (w : World) (url : String) (h : SoftFails w url) :
    fetchBody w url = [] := by
  unfold fetchBody
  rcases h with ⟨e, he⟩ | ⟨r, hr, hs⟩ | ⟨r, e, hr, he⟩
  · rw [he]
  · rw [hr]
    rcases hs with hs | hs
    · simp [hs]
    · simp [hs]
  · rw [hr]
    simp only [he]
    split <;> rfl

theorem rss_reader.active_of_nonempty (l : List (List Msg)) (h : ∀ q ∈ l, q ≠ []) :
    active l = l.length := by
  induction l with
  | nil => rfl
  | cons q qs ih =>
    have hq : q ≠ [] := h q (by simp)
    have := ih (fun q1 hq1 => h q1 (by simp [hq1]))
    simp only [active, List.map_cons, List.sum_cons, List.length_cons] at this ⊢
    simp only [hq, if_false, this]
    omega

theorem rss_reader.itemsThenQuit_ne_nil (q : List Msg) (h : ItemsThenQuit q) : q ≠ [] := by
  obtain ⟨is, his⟩ := h
  rw [his]
  simp

theorem rss_reader.itemsOf_length_add_quitCount (r : List (Nat × Msg)) :
    (itemsOf (r.map Prod.snd)).length + quitCount r = r.length := by
  induction r with
  | nil => rfl
  | cons a r ih =>
    obtain ⟨k, m⟩ := a
    rw [quitCount_cons]
    cases m with
    | item i =>
      simp only [List.map_cons, itemsOf, List.length_cons, reduceCtorEq, if_false]
      omega
    | quit =>
      simp only [List.map_cons, itemsOf, List.length_cons, if_true]
      omega

theorem rss_reader.itemsOf_eq_taggedItems (r : List (Nat × Msg)) :
    itemsOf (r.map Prod.snd) = (taggedItems r).map Prod.snd := by
  induction r with
  | nil => rfl
  | cons a r ih =>
    obtain ⟨k, m⟩ := a
    cases m <;> simp [itemsOf, taggedItems, ih]

theorem rss_reader.taggedItems_filter (k : Nat) (r : List (Nat × Msg)) :
    ((taggedItems r).filter (fun p => p.1 == k)).map Prod.snd = itemsOf (fromGoroutine k r) := by
  induction r with
  | nil => rfl
  | cons a r ih =>
    obtain ⟨j, m⟩ := a
    rw [fromGoroutine_cons]
    by_cases hjk : j = k
    · cases m <;> simp [taggedItems, List.filter_cons, hjk, itemsOf, ih]
    · cases m <;> simp [taggedItems, List.filter_cons, hjk, itemsOf, ih]

theorem rss_reader.taggedItems_tag (r : List (Nat × Msg)) (n : Nat) (h : ∀ a ∈ r, a.1 < n) :
    ∀ p ∈ taggedItems r, p.1 < n := by
  induction r with
  | nil => simp [taggedItems]
  | cons a r ih =>
    obtain ⟨j, m⟩ := a
    have hj : j < n := h (j, m) (by simp)
    have ih1 := ih (fun a ha => h a (by simp [ha]))
    cases m with
    | item i =>
      intro p hp
      simp only [taggedItems, List.mem_cons] at hp
      rcases hp with hp | hp
      · rw [hp]; exact hj
      · exact ih1 p hp
    | quit => simpa [taggedItems] using ih1

theorem rss_reader.totalPending_fetch (w : World) (urls : List String) :
    totalPending (urls.map (fetchItemsFromURL w))
      = (urls.map (fun u => (emitted w u).length)).sum + urls.length := by
  induction urls with
  | nil => rfl
  | cons u us ih =>
    obtain ⟨is, his⟩ := fetch_itemsThenQuit w u
    have hlen : (fetchItemsFromURL w u).length = (emitted w u).length + 1 := by
      unfold emitted
      rw [his, itemsOf_append, itemsOf_map_item]
      simp [itemsOf]
    simp only [totalPending, List.map_cons, List.sum_cons, List.length_cons, List.map_map] at ih ⊢
    rw [hlen]
    omega

/-- `Parse` on a non-empty list returns, under every scheduler, with a nil
error, once it has received every send of every goroutine. -/
theorem rss_reader.Parse_returns (w : World) (urls : List String) (sched : List Nat)
    (hne : urls ≠ []) :
    ∃ run, Parse w urls sched = some run ∧ run.err = none ∧ run.started = urls
      ∧ run.items = itemsOf (run.received.map Prod.snd)
      ∧ (∀ q ∈ run.pending, q = [])
      ∧ (∀ j, fromGoroutine j run.received = (urls.map (fetchItemsFromURL w)).getD j [])
      ∧ (∀ a ∈ run.received, a.1 < urls.length)
      ∧ run.received.length = totalPending (urls.map (fetchItemsFromURL w))
      ∧ quitCount run.received = urls.length := by
  have hlen : urls.length ≠ 0 := by
    intro h
    exact hne (List.length_eq_zero.mp h)
  have hinv : ∀ q ∈ urls.map (fetchItemsFromURL w), ItemsThenQuit q := by
    intro q hq
    obtain ⟨u, _, hu⟩ := List.mem_map.mp hq
    rw [← hu]
    exact fetch_itemsThenQuit w u
  have hact : active (urls.map (fetchItemsFromURL w)) = urls.length := by
    rw [active_of_nonempty _ (fun q hq => itemsThenQuit_ne_nil q (hinv q hq))]
    simp
  obtain ⟨c, new, hc, h1, h2, h3, h4, h5, h6, h7, h8, h9⟩ :=
    collect_returns urls.length (totalPending (urls.map (fetchItemsFromURL w))) sched
      (urls.map (fetchItemsFromURL w)) [] 0 []
      (fun q hq => Or.inr (hinv q hq)) (by omega) (by omega) (le_refl _)
  simp only [List.nil_append] at h1 h2
  refine ⟨{ items := c.items, err := none, started := urls, received := c.received,
            pending := c.pending }, ?_, rfl, rfl, ?_, h3, ?_, ?_, ?_, ?_⟩
  · unfold Parse
    simp only [hlen, if_false]
    unfold totalPending at hc
    rw [hc]
  · simp only [h1, h2]
  · simp only [h1]; exact h5
  · simp only [h1]
    intro a ha
    simpa using h6 a ha
  · simp only [h1]; exact h7
  · simp only [h1, h8, hact]

theorem rss_reader.fromGoroutine_zero (r : List (Nat × Msg)) (h : ∀ a ∈ r, a.1 < 1) :
    fromGoroutine 0 r = r.map Prod.snd := by
  unfold fromGoroutine
  have : r.filter (fun a => a.1 == 0) = r := by
    rw [List.filter_eq_self]
    intro a ha
    have := h a ha
    simp only [beq_iff_eq]
    omega
  rw [this]

theorem rss_reader.quitCount_append (a b : List (Nat × Msg)) :
    quitCount (a ++ b) = quitCount a + quitCount b := by
  simp [quitCount, List.filter_append]

theorem rss_reader.quitCount_take_le (r : List (Nat × Msg)) (n : Nat) :
    quitCount (r.take n) ≤ quitCount r := by
  have h := quitCount_append (r.take n) (r.drop n)
  rw [List.take_append_drop] at h
  omega

theorem rss_reader.sum_map_zero (urls : List String) (f : String → Nat)
    (h : ∀ u ∈ urls, f u = 0) : (urls.map f).sum = 0 := by
  induction urls with
  | nil => rfl
  | cons u us ih =>
    have hu := h u (by simp)
    have := ih (fun v hv => h v (by simp [hv]))
    simp [hu, this]

/-- The returned items of `Parse` on a non-empty list, tagged with their
sources. -/
theorem rss_reader.Parse_tagged (w : World) (urls : List String) (sched : List Nat)
    (hne : urls ≠ []) :
    ∃ (run : Run) (tagged : List (Nat × RssItem)), Parse w urls sched = some run
      ∧ run.err = none
      ∧ run.items = tagged.map Prod.snd
      ∧ (∀ p ∈ tagged, p.1 < urls.length)
      ∧ (∀ k (hk : k < urls.length),
          (tagged.filter (fun p => p.1 == k)).map Prod.snd = emitted w (urls.get ⟨k, hk⟩))
      ∧ run.items.length = (urls.map (fun u => (emitted w u).length)).sum := by
  obtain ⟨run, hrun, herr, _, hitems, _, hfrom, htags, hlen, hquits⟩ :=
    Parse_returns w urls sched hne
  refine ⟨run, taggedItems run.received, hrun, herr, ?_, ?_, ?_, ?_⟩
  · rw [hitems, itemsOf_eq_taggedItems]
  · exact taggedItems_tag run.received urls.length htags
  · intro k hk
    rw [taggedItems_filter, hfrom k]
    have hk1 : k < (urls.map (fetchItemsFromURL w)).length := by simpa using hk
    rw [getD_eq_get _ k hk1]
    simp [emitted]
  · have h := itemsOf_length_add_quitCount run.received
    rw [hlen, hquits, totalPending_fetch, ← hitems] at h
    omega

theorem rss_reader.mem_fromGoroutine (arr : List (Nat × Msg)) (a : Nat × Msg) (ha : a ∈ arr) :
    a.2 ∈ fromGoroutine a.1 arr := by
  unfold fromGoroutine
  exact List.mem_map_of_mem _ (List.mem_filter.mpr ⟨ha, by simp⟩)

theorem rss_reader.arrivalOrder_nil_of_empty (pending : List (List Msg))
    (arr : List (Nat × Msg)) (hall : ∀ q ∈ pending, q = []) (harr : ArrivalOrder pending arr) :
    arr = [] := by
  cases arr with
  | nil => rfl
  | cons a as =>
    exfalso
    have hmem := mem_fromGoroutine (a :: as) a (by simp)
    rw [harr.2 a.1] at hmem
    have hlt : a.1 < pending.length := harr.1 a (by simp)
    rw [getD_eq_get _ _ hlt, hall _ (List.get_mem _ _ hlt)] at hmem
    simp at hmem

theorem rss_reader.arrivalOrder_step (pending : List (List Msg)) (k : Nat) (m : Msg)
    (arr : List (Nat × Msg)) (harr : ArrivalOrder pending ((k, m) :: arr)) :
    k < pending.length ∧ pending.getD k [] = m :: fromGoroutine k arr
      ∧ ArrivalOrder (pending.set k (fromGoroutine k arr)) arr := by
  have hk : k < pending.length := harr.1 (k, m) (by simp)
  have hq : pending.getD k [] = m :: fromGoroutine k arr := by
    rw [← harr.2 k, fromGoroutine_cons, if_pos rfl]
  refine ⟨hk, hq, ?_, ?_⟩
  · intro a ha
    have := harr.1 a (by simp [ha])
    simpa using this
  · intro j
    by_cases hkj : k = j
    · subst hkj
      rw [getD_set_self pending k _ hk]
    · rw [getD_set_other pending k j _ hkj, ← harr.2 j, fromGoroutine_cons, if_neg hkj]

theorem rss_reader.nextSend_of_head (pending : List (List Msg)) (k : Nat) (m : Msg)
    (rest : List Msg) (hq : pending.getD k [] = m :: rest) :
    nextSend k pending = some (k, m, rest) := by
  unfold nextSend
  rw [hq]

/-- Every arrival order of the pending sends is the one the loop receives
under some scheduler: the scheduler that names the senders in that order. -/
theorem rss_reader.collect_follows (N : Nat) :
    ∀ (fuel : Nat) (arr : List (Nat × Msg)) (pending : List (List Msg)) (items : List RssItem)
      (done : Nat) (received : List (Nat × Msg)),
      (∀ q ∈ pending, q = [] ∨ ItemsThenQuit q) →
      done + active pending = N → 0 < active pending → totalPending pending ≤ fuel →
      ArrivalOrder pending arr →
      ∃ c, collect N fuel (arr.map Prod.fst) pending items done received = some c
        ∧ c.received = received ++ arr := by
  intro fuel
  induction fuel with
  | zero =>
    intro arr pending items done received hinv hdone hact hfuel harr
    exfalso
    have hall : ∀ q ∈ pending, q = [] := by
      intro q hq
      have hle : q.length ≤ totalPending pending := by
        unfold totalPending
        exact List.single_le_sum (by simp) _ (List.mem_map_of_mem _ hq)
      exact List.length_eq_zero.mp (by omega)
    have := active_eq_zero pending hall
    omega
  | succ fuel ih =>
    intro arr pending items done received hinv hdone hact hfuel harr
    cases arr with
    | nil =>
      exfalso
      have hall : ∀ q ∈ pending, q = [] := by
        intro q hq
        obtain ⟨j, hjq⟩ := List.mem_iff_get.mp hq
        have := harr.2 j
        rw [getD_eq_get _ _ j.isLt] at this
        rw [← hjq, ← this]
        rfl
      have := active_eq_zero pending hall
      omega
    | cons a arr =>
      obtain ⟨k, m⟩ := a
      obtain ⟨hk, hq, harr1⟩ := arrivalOrder_step pending k m arr harr
      have hns := nextSend_of_head pending k m _ hq
      have hshape := head_pending_shape pending k m _ hk hq hinv
      have hact1 := step_active pending k m _ hk hq
      have htot1 := step_total pending k m _ hk hq
      unfold collect
      simp only [List.map_cons, List.headD_cons, List.tail_cons, hns]
      cases m with
      | item i =>
        obtain ⟨hrest, hne⟩ := tail_of_item i _ hshape
        simp only [hne, if_false] at hact1
        have hdne : ¬ done = N := by omega
        simp only [hdne, if_false]
        obtain ⟨c, hc, h1⟩ :=
          ih arr (pending.set k (fromGoroutine k arr)) (items ++ [i]) done
            (received ++ [(k, Msg.item i)])
            (inv_set pending k _ (Or.inr hrest) hinv) (by omega) (by omega) (by omega) harr1
        exact ⟨c, hc, by rw [h1]; simp⟩
      | quit =>
        have hrest := tail_of_quit _ hshape
        rw [hrest] at hact1 htot1 harr1 ⊢
        simp only [if_true] at hact1
        by_cases hret : done + 1 = N
        · simp only [hret, if_true]
          have hall : ∀ q ∈ pending.set k [], q = [] := all_empty_of_active _ (by omega)
          have hnil := arrivalOrder_nil_of_empty _ arr hall harr1
          exact ⟨_, rfl, by rw [hnil]⟩
        · simp only [hret, if_false]
          obtain ⟨c, hc, h1⟩ :=
            ih arr (pending.set k []) items (done + 1) (received ++ [(k, Msg.quit)])
              (inv_set pending k [] (Or.inl rfl) hinv) (by omega) (by omega) (by omega) harr1
          exact ⟨c, hc, by rw [h1]; simp⟩

/-- Every arrival order of the goroutines' sends is the order in which `Parse`
receives them under some scheduler. -/
theorem rss_reader.Parse_follows (w : World) (urls : List String) (arr : List (Nat × Msg))
    (hne : urls ≠ []) (harr : ArrivalOrder (urls.map (fetchItemsFromURL w)) arr) :
    ∃ run : Run, Parse w urls (arr.map Prod.fst) = some run ∧ run.err = none
      ∧ run.received = arr ∧ run.items = itemsOf (arr.map Prod.snd) := by
  have hlen : urls.length ≠ 0 := by
    intro h
    exact hne (List.length_eq_zero.mp h)
  have hinv : ∀ q ∈ urls.map (fetchItemsFromURL w), ItemsThenQuit q := by
    intro q hq
    obtain ⟨u, _, hu⟩ := List.mem_map.mp hq
    rw [← hu]
    exact fetch_itemsThenQuit w u
  have hact : active (urls.map (fetchItemsFromURL w)) = urls.length := by
    rw [active_of_nonempty _ (fun q hq => itemsThenQuit_ne_nil q (hinv q hq))]
    simp
  obtain ⟨c, hc, h1⟩ :=
    collect_follows urls.length (totalPending (urls.map (fetchItemsFromURL w))) arr
      (urls.map (fetchItemsFromURL w)) [] 0 []
      (fun q hq => Or.inr (hinv q hq)) (by omega) (by omega) (le_refl _) harr
  obtain ⟨run, hrun, herr, _, hitems, _⟩ := Parse_returns w urls (arr.map Prod.fst) hne
  have hrecv : run.received = arr := by
    unfold Parse at hrun
    simp only [hlen, if_false] at hrun
    unfold totalPending at hc
    rw [hc] at hrun
    simp only [Option.some.injEq] at hrun
    rw [← hrun]
    simpa using h1
  exact ⟨run, hrun, herr, hrecv, by rw [hitems, hrecv]⟩

/-- A goroutine that ends without its completion signal stalls the loop: with
one goroutine that sends an item and nothing else, the loop never leaves,
whatever the scheduler and the bound on its rounds. -/
theorem rss_reader.collect_blocks_without_quit (fuel : Nat) (sched : List Nat) :
    collect 1 fuel sched [[Msg.item testItem]] [] 0 [] = none := by
  have hnone : ∀ c, nextSend c [[]] = none := by
    intro c
    unfold nextSend
    cases c <;> rfl
  have hidle : ∀ (fuel : Nat) (sched : List Nat) (items : List RssItem)
      (received : List (Nat × Msg)), collect 1 fuel sched [[]] items 0 received = none := by
    intro fuel sched items received
    cases fuel with
    | zero => rfl
    | succ fuel =>
      unfold collect
      simp only [hnone]
  cases fuel with
  | zero => rfl
  | succ fuel =>
    have hns : nextSend (sched.headD 0) [[Msg.item testItem]]
        = some (0, Msg.item testItem, []) := by
      unfold nextSend
      cases sched.headD 0 <;> rfl
    unfold collect
    simp only [hns]
    exact hidle fuel sched.tail _ _

end ParseLemmas

open rss_reader in
/-- C1. For every list of urls (in every world, under every scheduler) `Parse`
returns, and its error is non-nil exactly when the list is empty.  For the
empty list the error is "Urls list is empty", the returned collection is empty
and no goroutine is started, no message received; for every non-empty list the
error is nil and one goroutine per url is started. -/
theorem Parse_error_iff_urls_empty (w : World) (urls : List String) (sched : List Nat) :
    ∃ run, Parse w urls sched = some run
      ∧ (run.err ≠ none ↔ urls = [])
      ∧ (urls = [] → run.err = some "Urls list is empty" ∧ run.items = [] ∧ run.started = []
          ∧ run.received = [])
      ∧ (urls ≠ [] → run.err = none ∧ run.started = urls) := by
  by_cases hne : urls = []
  · subst hne
    refine ⟨_, rfl, ?_, ?_, ?_⟩
    · simp
    · intro _
      exact ⟨rfl, rfl, rfl, rfl⟩
    · intro h
      exact absurd rfl h
  · obtain ⟨run, hrun, herr, hstarted, _⟩ := Parse_returns w urls sched hne
    refine ⟨run, hrun, ?_, ?_, ?_⟩
    · simp [herr, hne]
    · intro h
      exact absurd h hne
    · intro _
      exact ⟨herr, hstarted⟩

open rss_reader in
/-- C2. For every non-empty list of urls and every scheduler (every order in
which the goroutines' sends arrive), `Parse` returns with a nil error a
collection that is an order-preserving interleaving of the item sequences the
sources emit: the returned items can be tagged with the index of the source
each came from, so that the items tagged `k`, in the order returned, are
exactly the items emitted by source `k`; no item is lost or counted twice, and
the length of the collection is the sum of the numbers of items emitted.
Every arrival order of the goroutines' sends (each goroutine's items in order,
then its completion signal) is the order received under some scheduler, and
`Parse` then returns the items in that order. -/
theorem Parse_items_interleave_sources (w : World) (urls : List String) (sched : List Nat)
    (hne : urls ≠ []) :
    (∃ (run : Run) (tagged : List (Nat × RssItem)), Parse w urls sched = some run
      ∧ run.err = none
      ∧ run.items = tagged.map Prod.snd
      ∧ (∀ p ∈ tagged, p.1 < urls.length)
      ∧ (∀ k (hk : k < urls.length),
          (tagged.filter (fun p => p.1 == k)).map Prod.snd = emitted w (urls.get ⟨k, hk⟩))
      ∧ run.items.length = (urls.map (fun u => (emitted w u).length)).sum)
    ∧ (∀ arr, ArrivalOrder (urls.map (fetchItemsFromURL w)) arr →
        ∃ run : Run, Parse w urls (arr.map Prod.fst) = some run ∧ run.err = none
          ∧ run.received = arr ∧ run.items = itemsOf (arr.map Prod.snd)) :=
  ⟨Parse_tagged w urls sched hne, fun arr harr => Parse_follows w urls arr hne harr⟩

open rss_reader in
/-- Witness of C2: two sources of the test world, the second scheduled first. -/
theorem Parse_items_interleave_sources_witness :
    testUrls ≠ []
      ∧ (∃ (run : Run) (tagged : List (Nat × RssItem)),
        Parse testWorld testUrls [1, 0, 0] = some run
          ∧ run.err = none
          ∧ run.items = tagged.map Prod.snd
          ∧ (∀ p ∈ tagged, p.1 < testUrls.length)
          ∧ (∀ k (hk : k < testUrls.length),
              (tagged.filter (fun p => p.1 == k)).map Prod.snd
                = emitted testWorld (testUrls.get ⟨k, hk⟩))
          ∧ run.items.length = (testUrls.map (fun u => (emitted testWorld u).length)).sum)
      ∧ (∀ arr, ArrivalOrder (testUrls.map (fetchItemsFromURL testWorld)) arr →
          ∃ run : Run, Parse testWorld testUrls (arr.map Prod.fst) = some run ∧ run.err = none
            ∧ run.received = arr ∧ run.items = itemsOf (arr.map Prod.snd)) :=
  ⟨by decide,
    (Parse_items_interleave_sources testWorld testUrls [1, 0, 0] (by decide)).1,
    (Parse_items_interleave_sources testWorld testUrls [1, 0, 0] (by decide)).2⟩

open rss_reader in
/-- C3. When the document of a source is retrieved with a status in
[200, 299] and decodes, `fetchItemsFromURL` sends, before its completion
signal, exactly the items built from the longest prefix of the document's
entries whose dates `ParseDate` accepts, in document order: the entries are
this prefix followed by a rest that is empty or starts with an entry whose
date is rejected, and nothing of the rest is sent.  A document whose first
entry has a rejected date contributes no item. -/
theorem fetch_emits_longest_dated_prefix (w : World) (url : String) (r : Response)
    (feed : rssFeed) (hget : w.httpGet url = .ok r)
    (hstatus : 200 ≤ r.StatusCode ∧ r.StatusCode ≤ 299)
    (hxml : w.xmlUnmarshal r.Body = .ok feed) :
    ∃ items : List RssItem, fetchItemsFromURL w url = items.map Msg.item ++ [Msg.quit]
      ∧ List.Forall₂ (Emits w feed.Channel.Source url)
          (feed.Channel.Items.takeWhile (dateOk w)) items
      ∧ feed.Channel.Items
          = feed.Channel.Items.takeWhile (dateOk w) ++ feed.Channel.Items.dropWhile (dateOk w)
      ∧ (∀ e ∈ feed.Channel.Items.takeWhile (dateOk w), dateOk w e = true)
      ∧ (∀ e, (feed.Channel.Items.dropWhile (dateOk w)).head? = some e → dateOk w e = false)
      ∧ (∀ first rest, feed.Channel.Items = first :: rest → dateOk w first = false →
          items = []) := by
  obtain ⟨items, h1, h2⟩ := sendItems_spec w feed.Channel.Source url feed.Channel.Items
  refine ⟨items, ?_, h2, (List.takeWhile_append_dropWhile _ _).symm, ?_, ?_, ?_⟩
  · rw [fetchItemsFromURL, fetchBody_accepted w url r feed hget hstatus hxml, h1]
  · intro e he
    exact List.mem_takeWhile_imp he
  · intro e he
    have := List.head?_dropWhile_not (dateOk w) feed.Channel.Items
    rw [he] at this
    simpa using this
  · intro first rest hitems hfirst
    rw [hitems, List.takeWhile_cons, hfirst] at h2
    simpa using h2

open rss_reader in
/-- Witness of C3: the source `/mixed.rss` of the test world. -/
theorem fetch_emits_longest_dated_prefix_witness :
    testWorld.httpGet "http://127.0.0.1/mixed.rss"
        = .ok { StatusCode := 200, Body := toBytes "mixed" }
      ∧ ((200 : Int) ≤ 200 ∧ (200 : Int) ≤ 299)
      ∧ testWorld.xmlUnmarshal (toBytes "mixed") = .ok mixedFeed
      ∧ ∃ items : List RssItem,
          fetchItemsFromURL testWorld "http://127.0.0.1/mixed.rss"
            = items.map Msg.item ++ [Msg.quit]
          ∧ List.Forall₂ (Emits testWorld mixedFeed.Channel.Source "http://127.0.0.1/mixed.rss")
              (mixedFeed.Channel.Items.takeWhile (dateOk testWorld)) items
          ∧ mixedFeed.Channel.Items
              = mixedFeed.Channel.Items.takeWhile (dateOk testWorld)
                ++ mixedFeed.Channel.Items.dropWhile (dateOk testWorld)
          ∧ (∀ e ∈ mixedFeed.Channel.Items.takeWhile (dateOk testWorld),
              dateOk testWorld e = true)
          ∧ (∀ e, (mixedFeed.Channel.Items.dropWhile (dateOk testWorld)).head? = some e →
              dateOk testWorld e = false)
          ∧ (∀ first rest, mixedFeed.Channel.Items = first :: rest →
              dateOk testWorld first = false → items = []) :=
  ⟨by decide, by decide, by decide,
    fetch_emits_longest_dated_prefix testWorld "http://127.0.0.1/mixed.rss"
      { StatusCode := 200, Body := toBytes "mixed" } mixedFeed (by decide) (by decide)
      (by decide)⟩

open rss_reader in
/-- C4. For a single source that answers with a status in [200, 299] and a
document that decodes to K entries whose dates `ParseDate` all accepts,
`Parse([url])` returns, under every scheduler, a nil error and exactly K
items; the i-th item has the title, description and link of the i-th entry,
`PublishDate` is the time `ParseDate` returns for that entry's date string,
`Source` is the channel title and `SourceURL` is `url`. -/
theorem Parse_single_source (w : World) (url : String) (sched : List Nat) (r : Response)
    (feed : rssFeed) (hget : w.httpGet url = .ok r)
    (hstatus : 200 ≤ r.StatusCode ∧ r.StatusCode ≤ 299)
    (hxml : w.xmlUnmarshal r.Body = .ok feed)
    (hdates : ∀ e ∈ feed.Channel.Items, dateOk w e = true) :
    ∃ run : Run, Parse w [url] sched = some run ∧ run.err = none
      ∧ run.items.length = feed.Channel.Items.length
      ∧ List.Forall₂ (Emits w feed.Channel.Source url) feed.Channel.Items run.items := by
  obtain ⟨run, hrun, herr, _, hitems, _, hfrom, htags, _, _⟩ :=
    Parse_returns w [url] sched (by simp)
  obtain ⟨items, h1, h2⟩ := sendItems_spec w feed.Channel.Source url feed.Channel.Items
  have hall : feed.Channel.Items.takeWhile (dateOk w) = feed.Channel.Items :=
    List.takeWhile_eq_self_iff.mpr hdates
  rw [hall] at h2
  have hrecv : run.received.map Prod.snd = fetchItemsFromURL w url := by
    rw [← fromGoroutine_zero run.received (by simpa using htags), hfrom 0]
    rfl
  have hri : run.items = items := by
    rw [hitems, hrecv, fetchItemsFromURL, fetchBody_accepted w url r feed hget hstatus hxml, h1,
      itemsOf_append, itemsOf_map_item]
    simp [itemsOf]
  refine ⟨run, hrun, herr, ?_, ?_⟩
  · rw [hri]
    exact h2.length_eq.symm
  · rw [hri]
    exact h2

open rss_reader in
/-- Witness of C4: the source `/feed.rss` of the test world, the document of
the repository's test. -/
theorem Parse_single_source_witness :
    testWorld.httpGet "http://127.0.0.1/feed.rss"
        = .ok { StatusCode := 200, Body := toBytes "feed" }
      ∧ ((200 : Int) ≤ 200 ∧ (200 : Int) ≤ 299)
      ∧ testWorld.xmlUnmarshal (toBytes "feed") = .ok testFeed
      ∧ (∀ e ∈ testFeed.Channel.Items, dateOk testWorld e = true)
      ∧ ∃ run : Run, Parse testWorld ["http://127.0.0.1/feed.rss"] [] = some run
          ∧ run.err = none
          ∧ run.items.length = testFeed.Channel.Items.length
          ∧ List.Forall₂ (Emits testWorld testFeed.Channel.Source "http://127.0.0.1/feed.rss")
              testFeed.Channel.Items run.items :=
  ⟨by decide, by decide, by decide, by decide,
    Parse_single_source testWorld "http://127.0.0.1/feed.rss" []
      { StatusCode := 200, Body := toBytes "feed" } testFeed (by decide) (by decide) (by decide)
      (by decide)⟩

open rss_reader in
/-- C5. A source whose retrieval fails, whose status is outside [200, 299], or
whose body does not decode sends nothing but its completion signal; `Parse` on
a non-empty list holding only such sources returns, under every scheduler, an
empty collection and a nil error.  The statuses 199 and 300 are rejected
whatever the body; with the statuses 200 and 299 the body is decoded and the
items of the document are sent. -/
theorem soft_failures_contribute_nothing (w : World) :
    (∀ url, SoftFails w url → fetchItemsFromURL w url = [Msg.quit])
      ∧ (∀ urls sched, urls ≠ [] → (∀ u ∈ urls, SoftFails w u) →
          ∃ run : Run, Parse w urls sched = some run ∧ run.items = [] ∧ run.err = none)
      ∧ (∀ url r, w.httpGet url = .ok r → r.StatusCode = 199 ∨ r.StatusCode = 300 →
          fetchItemsFromURL w url = [Msg.quit])
      ∧ (∀ url r feed, w.httpGet url = .ok r → r.StatusCode = 200 ∨ r.StatusCode = 299 →
          w.xmlUnmarshal r.Body = .ok feed →
          fetchItemsFromURL w url
            = sendItems w feed.Channel.Source url feed.Channel.Items ++ [Msg.quit]) := by
  have hsoft : ∀ url, SoftFails w url → fetchItemsFromURL w url = [Msg.quit] := by
    intro url h
    rw [fetchItemsFromURL, fetchBody_softFails w url h]
    rfl
  refine ⟨hsoft, ?_, ?_, ?_⟩
  · intro urls sched hne hall
    obtain ⟨run, tagged, hrun, herr, _, _, _, hlen⟩ := Parse_tagged w urls sched hne
    refine ⟨run, hrun, ?_, herr⟩
    have hzero : (urls.map (fun u => (emitted w u).length)).sum = 0 := by
      apply sum_map_zero
      intro u hu
      simp [emitted, hsoft u (hall u hu), itemsOf]
    exact List.length_eq_zero.mp (by omega)
  · intro url r hget hs
    apply hsoft
    refine Or.inr (Or.inl ⟨r, hget, ?_⟩)
    rcases hs with hs | hs <;> rw [hs] <;> decide
  · intro url r feed hget hs hxml
    rw [fetchItemsFromURL, fetchBody_accepted w url r feed hget ?_ hxml]
    rcases hs with hs | hs <;> rw [hs] <;> decide

open rss_reader in
/-- Witness of C5: the test world; an unreachable url, a 403 answer and a body
that does not decode. -/
theorem soft_failures_contribute_nothing_witness :
    (SoftFails testWorld "http://127.0.0.1/forbidden"
        ∧ fetchItemsFromURL testWorld "http://127.0.0.1/forbidden" = [Msg.quit])
      ∧ (SoftFails testWorld "http://127.0.0.1/broken.rss"
        ∧ fetchItemsFromURL testWorld "http://127.0.0.1/broken.rss" = [Msg.quit])
      ∧ ∃ run : Run,
          Parse testWorld
              ["http://127.0.0.1/forbidden", "http://127.0.0.1/broken.rss", "http://10.0.0.1/"]
              [2, 0] = some run
            ∧ run.items = [] ∧ run.err = none :=
  have h403 : SoftFails testWorld "http://127.0.0.1/forbidden" :=
    Or.inr (Or.inl ⟨{ StatusCode := 403, Body := [] }, by decide, by decide⟩)
  have hbroken : SoftFails testWorld "http://127.0.0.1/broken.rss" :=
    Or.inr (Or.inr ⟨{ StatusCode := 200, Body := toBytes "<rss>broken" }, "XML syntax error",
      by decide, by decide⟩)
  have hdown : SoftFails testWorld "http://10.0.0.1/" :=
    Or.inl ⟨"connection refused", by decide⟩
  ⟨⟨h403, (soft_failures_contribute_nothing testWorld).1 _ h403⟩,
    ⟨hbroken, (soft_failures_contribute_nothing testWorld).1 _ hbroken⟩,
    (soft_failures_contribute_nothing testWorld).2.1
      ["http://127.0.0.1/forbidden", "http://127.0.0.1/broken.rss", "http://10.0.0.1/"] [2, 0]
      (by decide)
      (by
        intro u hu
        simp only [List.mem_cons, List.mem_singleton, List.not_mem_nil, or_false] at hu
        rcases hu with h | h | h
        · rw [h]; exact h403
        · rw [h]; exact hbroken
        · rw [h]; exact hdown)⟩

open rss_reader in
/-- C6. For every url and every outcome of the retrieval, the status check,
the decoding and the dates, `fetchItemsFromURL` sends items and then one
completion signal: the signal is sent exactly once, it is the last send, and
nothing is sent after it. -/
theorem fetch_sends_one_final_quit (w : World) (url : String) :
    (∃ items : List RssItem, fetchItemsFromURL w url = items.map Msg.item ++ [Msg.quit])
      ∧ (fetchItemsFromURL w url).count Msg.quit = 1
      ∧ (fetchItemsFromURL w url).getLast? = some Msg.quit
      ∧ (∀ before after, fetchItemsFromURL w url = before ++ Msg.quit :: after → after = []) := by
  obtain ⟨items, h⟩ := fetch_itemsThenQuit w url
  have hcount : (items.map Msg.item).count Msg.quit = 0 := by
    rw [List.count_eq_zero]
    intro hmem
    obtain ⟨i, _, hi⟩ := List.mem_map.mp hmem
    cases hi
  refine ⟨⟨items, h⟩, ?_, ?_, ?_⟩
  · rw [h, List.count_append, hcount]
    rfl
  · rw [h]
    simp
  · intro before after hsplit
    have hc : (fetchItemsFromURL w url).count Msg.quit = 1 := by
      rw [h, List.count_append, hcount]
      rfl
    have hl : (fetchItemsFromURL w url).getLast? = some Msg.quit := by
      rw [h]
      simp
    rw [hsplit] at hc hl
    rw [List.count_append, List.count_cons_self] at hc
    have hafter : after.count Msg.quit = 0 := by omega
    cases after using List.reverseRecOn with
    | nil => rfl
    | append_singleton init last _ =>
      exfalso
      have hlast : (before ++ Msg.quit :: (init ++ [last])).getLast? = some last := by
        rw [show before ++ Msg.quit :: (init ++ [last]) = (before ++ Msg.quit :: init) ++ [last]
          by simp]
        exact List.getLast?_concat _
      rw [hlast] at hl
      have : last = Msg.quit := Option.some.inj hl
      rw [this, List.count_append] at hafter
      simp at hafter

open rss_reader in
/-- C7. For N ≥ 1 goroutines that each send finitely many items and then one
completion signal, the collecting loop of `Parse` leaves under every scheduler
(with fuel for every pending send): it leaves when it has received the N-th
completion signal, which is the last message it receives; before that message
fewer than N signals had arrived; by then every goroutine has sent everything,
its completion signal included, and every send has been received. -/
theorem collect_leaves_at_last_quit (tasks : List (List Msg)) (sched : List Nat) (fuel : Nat)
    (hne : tasks ≠ []) (htasks : ∀ q ∈ tasks, ItemsThenQuit q)
    (hfuel : totalPending tasks ≤ fuel) :
    ∃ c : Collected, collect tasks.length fuel sched tasks [] 0 [] = some c
      ∧ quitCount c.received = tasks.length
      ∧ (∃ k, c.received.getLast? = some (k, Msg.quit))
      ∧ (∀ n, n < c.received.length → quitCount (c.received.take n) < tasks.length)
      ∧ (∀ j, fromGoroutine j c.received = tasks.getD j [])
      ∧ (∀ q ∈ c.pending, q = [])
      ∧ c.received.length = totalPending tasks := by
  have hlen : tasks.length ≠ 0 := by
    intro h
    exact hne (List.length_eq_zero.mp h)
  have hact : active tasks = tasks.length :=
    active_of_nonempty _ (fun q hq => itemsThenQuit_ne_nil q (htasks q hq))
  obtain ⟨c, new, hc, h1, _, h3, _, h5, _, h7, h8, k, h9⟩ :=
    collect_returns tasks.length fuel sched tasks [] 0 []
      (fun q hq => Or.inr (htasks q hq)) (by omega) (by omega) hfuel
  simp only [List.nil_append] at h1
  subst h1
  refine ⟨c, hc, by rw [h8, hact], ⟨k, h9⟩, ?_, h5, h3, h7⟩
  intro n hn
  obtain ⟨init, hinit⟩ : ∃ init, c.received = init ++ [(k, Msg.quit)] := by
    cases hrev : c.received using List.reverseRecOn with
    | nil => rw [hrev] at h9; simp at h9
    | append_singleton init last _ =>
      rw [hrev, List.getLast?_concat] at h9
      exact ⟨init, by rw [Option.some.inj h9]⟩
  have hq : quitCount init + 1 = tasks.length := by
    have := quitCount_append init [(k, Msg.quit)]
    rw [← hinit, h8, hact] at this
    have h1 : quitCount [(k, Msg.quit)] = 1 := rfl
    omega
  have hn1 : n ≤ init.length := by
    rw [hinit] at hn
    simp only [List.length_append, List.length_singleton] at hn
    omega
  have htake : c.received.take n = init.take n := by
    rw [hinit, List.take_append_of_le_length hn1]
  rw [htake]
  have := quitCount_take_le init n
  omega

open rss_reader in
/-- Witness of C7: two goroutines, the first sending an item before its
signal, the second scheduled first. -/
theorem collect_leaves_at_last_quit_witness :
    testTasks ≠ []
      ∧ (∀ q ∈ testTasks, ItemsThenQuit q)
      ∧ totalPending testTasks ≤ 3
      ∧ ∃ c : Collected, collect testTasks.length 3 [1, 0] testTasks [] 0 [] = some c
          ∧ quitCount c.received = testTasks.length
          ∧ (∃ k, c.received.getLast? = some (k, Msg.quit))
          ∧ (∀ n, n < c.received.length → quitCount (c.received.take n) < testTasks.length)
          ∧ (∀ j, fromGoroutine j c.received = testTasks.getD j [])
          ∧ (∀ q ∈ c.pending, q = [])
          ∧ c.received.length = totalPending testTasks :=
  have hne : testTasks ≠ [] := by decide
  have htasks : ∀ q ∈ testTasks, ItemsThenQuit q := by
    intro q hq
    simp only [testTasks, List.mem_cons, List.mem_singleton, List.not_mem_nil, or_false] at hq
    rcases hq with h | h
    · exact ⟨[testItem], by rw [h]; rfl⟩
    · exact ⟨[], by rw [h]; rfl⟩
  have hfuel : totalPending testTasks ≤ 3 := by decide
  ⟨hne, htasks, hfuel, collect_leaves_at_last_quit testTasks [1, 0] 3 hne htasks hfuel⟩

/-- Witness of C8: the date of the repository's test, in a process whose local
zone is UTC.  The six formats declared before `RFC1123Z` reject it, `RFC1123Z`
accepts it, and `ParseDate` returns the time of `RFC1123Z`. -/
theorem ParseDate_first_matching_format_witness :
    ∃ t, time.Parse utils.utcLocal time.RFC1123Z "Sun, 06 Sep 2009 16:20:00 +0000" = .ok t
      ∧ utils.ParseDate utils.utcLocal "Sun, 06 Sep 2009 16:20:00 +0000" = .ok t :=
  (time.Parse_of_accepts utils.utcLocal time.RFC1123Z "Sun, 06 Sep 2009 16:20:00 +0000"
    (by decide)).elim fun t ht =>
    ⟨t, ht,
      (ParseDate_first_matching_format utils.utcLocal "Sun, 06 Sep 2009 16:20:00 +0000").1
        [time.RFC822, time.RFC822Z, time.RFC3339, time.UnixDate, time.RubyDate, time.RFC850]
        [time.RFC1123, time.ANSIC, "Mon, January 2 2006 15:04:05 -0700",
          "Mon, Jan 2 2006 15:04:05 -700", "Mon, Jan 2 2006 15:04:05 -0700"]
        time.RFC1123Z t rfl
        (fun g hg u hgu => by
          have hacc : time.accepts g "Sun, 06 Sep 2009 16:20:00 +0000" = false := by
            simp only [List.mem_cons, List.mem_singleton, List.not_mem_nil, or_false] at hg
            rcases hg with h | h | h | h | h | h <;> subst h <;> decide
          obtain ⟨e, he⟩ := time.Parse_of_not_accepts utils.utcLocal g _ hacc
          rw [he] at hgu
          cases hgu)
        ht⟩

open rss_reader in
/-- The repository's test "urls set contains one url", run on the model: the
two items of the document are returned in order, with the instant
2009-09-06T16:20:00Z as publish date, the channel title as source and the url
queried as source url, and a nil error. -/
theorem Parse_test_feed_run :
    (Parse testWorld ["http://127.0.0.1/feed.rss"] []).map (fun run => (run.items, run.err))
      = some
          ([ { Title := "Title string", Source := "Test feed",
               SourceURL := "http://127.0.0.1/feed.rss", Link := "http://www.example.com/1",
               PublishDate := { unixSec := 1252254000, nsec := 0, loc := .Local },
               Description := "Description string." },
             { Title := "Second Title", Source := "Test feed",
               SourceURL := "http://127.0.0.1/feed.rss", Link := "http://www.example.com/2",
               PublishDate := { unixSec := 1252254000, nsec := 0, loc := .Local },
               Description := "Second Description" } ], none) := by
  decide

open rss_reader in
/-- The sources of the test world under two schedulers: the items of
`/mixed.rss` stop before the entry without a date, the failing sources add
nothing, and the order across sources follows the scheduler. -/
theorem Parse_test_world_runs :
    (Parse testWorld
        ["http://127.0.0.1/feed.rss", "http://127.0.0.1/mixed.rss", "http://127.0.0.1/forbidden"]
        [1, 2, 0]).map (fun run => (run.items.map (fun i => i.Title), run.err))
      = some (["First", "Title string", "Second Title"], none)
    ∧ (Parse testWorld
        ["http://127.0.0.1/feed.rss", "http://127.0.0.1/mixed.rss", "http://127.0.0.1/forbidden"]
        []).map (fun run => (run.items.map (fun i => i.Title), run.err))
      = some (["Title string", "Second Title", "First"], none) := by
  constructor <;> decide
